import Mathlib

/-!
Shallow embedding of `src/irrep/gvectors.py` (the IrRep G-vector core).

Real scalars are embedded as exact rationals `ℚ`; NumPy float arrays of
shape (3,) become `Fin 3 → ℚ`, 3×3 arrays become `Matrix (Fin 3) (Fin 3) ℚ`,
and integer G-vectors become triples `ℤ × ℤ × ℤ`.  Python exceptions become
`Except` errors.  `np.round` is round-half-to-even (NumPy semantics), and
`np.isclose` is embedded with NumPy's default tolerances
(`rtol = 1e-5`, `atol = 1e-8`).  `np.argsort` leaves the relative order of
tied keys unspecified; the embedding fixes the stable (index-ascending)
tie-break, which is one of NumPy's admissible behaviours.
-/

set_option linter.unusedVariables false
set_option maxRecDepth 10000

deriving instance DecidableEq for Except

abbrev Vec3 := Fin 3 → ℚ

abbrev Mat3 := Matrix (Fin 3) (Fin 3) ℚ

abbrev GVec := ℤ × ℤ × ℤ

/-- Direct coordinates of a G-vector as a rational vector. -/
def gvecToQ (g : GVec) : Vec3 := ![(g.1 : ℚ), (g.2.1 : ℚ), (g.2.2 : ℚ)]

/-- `gvectors.py` line 34: `twomhbar2 = 0.262465831` (with `correction = 0`). -/
def twomhbar2 : ℚ := 0.262465831

/-- `gvectors.py` line 124: `etot = norm((K + np.array(igp)).dot(B)) ** 2 / twomhbar2`.
`norm(v) ** 2` is the exact sum of squares. -/
def etot (K : Vec3) (B : Mat3) (g : GVec) : ℚ :=
  Matrix.dotProduct (Matrix.vecMul (K + gvecToQ g) B) (Matrix.vecMul (K + gvecToQ g) B)
    / twomhbar2

/-- The list of integers `a, a+1, ..., b` (empty when `b < a`). -/
def intRange (a b : ℤ) : List ℤ :=
  (List.range (b + 1 - a).toNat).map (fun k : ℕ => a + (k : ℤ))

/-- `gvectors.py` line 122: `set([-(N-|g3|-|g2|), N-|g3|-|g2|])` — the one- or
two-element set of values for `ig1`. -/
def g1List (m : ℤ) : List ℤ := if m = 0 then [0] else [-m, m]

/-- `gvectors.py` lines 120-123: the triples `(ig1, ig2, ig3)` enumerated at
radius `N` (the three nested `for` loops). -/
def shellTriples (N : ℕ) : List GVec :=
  (intRange (-(N : ℤ)) N).flatMap (fun ig3 =>
    (intRange (-((N : ℤ) - |ig3|)) ((N : ℤ) - |ig3|)).flatMap (fun ig2 =>
      (g1List ((N : ℤ) - |ig3| - |ig2|)).map (fun ig1 => ((ig1, ig2, ig3) : GVec))))

/-- The triples appended to `igall` at radius `N` (those with `etot < Ecut`,
line 125). -/
def radiusAdd (K : Vec3) (B : Mat3) (Ecut : ℚ) (N : ℕ) : List GVec :=
  (shellTriples N).filter (fun g => decide (etot K B g < Ecut))

/-- Errors raised by `calc_gvectors`.  `stuck` and `countMismatch` are the two
`RuntimeError`s of the source; `emptyTable` is the NumPy `ValueError` raised by
`igall.max(axis=0)` on a zero-size array (line 151). -/
inductive GvErr where
  | stuck : GvErr
  | countMismatch : GvErr
  | emptyTable : GvErr
deriving DecidableEq

/-- State of the enumeration loop: the accumulated `igall` list and the
10-element sliding window `memory`. -/
structure GvState where
  igall : List GVec
  memory : List Bool
deriving DecidableEq

/-- `gvectors.py` lines 98-130: one pass of `for N in range(nplanemax)` with the
break / stuck checks at the top of the body, the triple-nested enumeration, and
the `memory` shift at the bottom.  `fuel` is the number of remaining loop
indices; the second component of the result counts executed iterations.
`nplane = none` embeds `np.Inf`. -/
def gvIter (K : Vec3) (B : Mat3) (Ecut : ℚ) (nplane : Option ℕ) (spinor : Bool) :
    ℕ → ℕ → GvState → (Except Unit (List GVec)) × ℕ
  | 0, _, st => (.ok st.igall, 0)
  | fuel + 1, N, st =>
    let contin : (Except Unit (List GVec)) × ℕ :=
      let added := radiusAdd K B Ecut N
      let st' : GvState := ⟨st.igall ++ added, st.memory.tail ++ [added.isEmpty]⟩
      let r := gvIter K B Ecut nplane spinor fuel (N + 1) st'
      (r.1, r.2 + 1)
    match nplane with
    | none => contin
    | some np =>
      if np ≤ 2 * st.igall.length then
        if spinor then (.ok st.igall, 1)
        else if np ≤ st.igall.length then (.ok st.igall, 1)
        else if st.memory.all (fun b => b) then (.error (), 1)
        else contin
      else contin

/-- NumPy integer `%` (sign of the divisor); NumPy defines `x % 0 = 0`. -/
def npmod (x n : ℤ) : ℤ := if n = 0 then 0 else x % n

/-- `gvectors.py` lines 152-155: the mixed-radix canonical sort key
`(igall1[:,2]*ng[1] + igall1[:,1])*ng[0] + igall1[:,0]` of a triple reduced
modulo `ng`. -/
def canonKey (ng : GVec) (g : GVec) : ℤ :=
  (npmod g.2.2 ng.2.2 * ng.2.1 + npmod g.2.1 ng.2.1) * ng.1 + npmod g.1 ng.1

/-- Lexicographic order on (key, original index) pairs: the embedding of
`np.argsort` sorts by key, breaking ties by the original position. -/
def keyIdxLe {α : Type} [LinearOrder α] (p q : ℕ × α) : Prop :=
  p.2 < q.2 ∨ (p.2 = q.2 ∧ p.1 ≤ q.1)

instance {α : Type} [LinearOrder α] : DecidableRel (@keyIdxLe α _) := fun p q => by
  unfold keyIdxLe; infer_instance

/-- `np.argsort keys`: the indices `0, ..., len-1` permuted so that the keys
are ascending (ties kept in index order). -/
def argsort {α : Type} [LinearOrder α] (keys : List α) : List ℕ :=
  (List.insertionSort keyIdxLe keys.enum).map Prod.fst

/-- NumPy fancy indexing `l[idxs]`. -/
def reorder {α : Type} (l : List α) (idxs : List ℕ) : List α :=
  idxs.filterMap (fun i => l.get? i)

/-- One row of the returned 6×N table: the integer triple (rows 0-2), the
canonical-order index (row 3) and the energy-shell bounds (rows 4, 5). -/
structure Row where
  g : GVec
  idx : ℕ
  s : ℕ
  e : ℕ
deriving DecidableEq

/-- `igall[4, a:b] = a; igall[5, a:b] = b` — one slice assignment of the
shell-filling loop (lines 170-172). -/
def setSlice (a b : ℕ) (rows : List Row) : List Row :=
  rows.enum.map (fun p => if a ≤ p.1 ∧ p.1 < b then { p.2 with s := a, e := b } else p.2)

/-- `gvectors.py` lines 170-172: the loop over consecutive `wall` entries. -/
def fillShells (rows : List Row) (wall : List ℕ) : List Row :=
  (wall.zip wall.tail).foldl (fun rs p => setSlice p.1 p.2 rs) rows

/-- Componentwise maximum of a nonempty list of integers. -/
def listMaxZ (l : List ℤ) : ℤ :=
  match l with
  | [] => 0
  | x :: xs => xs.foldl max x

/-- Componentwise minimum of a nonempty list of integers. -/
def listMinZ (l : List ℤ) : ℤ :=
  match l with
  | [] => 0
  | x :: xs => xs.foldl min x

/-- `ng = igall.max(axis=0) - igall.min(axis=0)` (line 151). -/
def gvNg (igall : List GVec) : GVec :=
  (listMaxZ (igall.map (·.1)) - listMinZ (igall.map (·.1)),
   listMaxZ (igall.map (·.2.1)) - listMinZ (igall.map (·.2.1)),
   listMaxZ (igall.map (·.2.2)) - listMinZ (igall.map (·.2.2)))

/-- The energy at position `i` of a list of (triple, canonical index) pairs
(`Eg[i]` of the energy-sorted arrays; `0` out of range). -/
def egAt (K : Vec3) (B : Mat3) (l : List (GVec × ℕ)) (i : ℕ) : ℚ :=
  ((l.get? i).map (fun p => etot K B p.1)).getD 0

/-- `gvectors.py` line 169:
`wall = [0] + list(np.where(Eg[1:] - Eg[:-1] > thresh)[0] + 1) + [n]`. -/
def gvWall (K : Vec3) (B : Mat3) (thresh : ℚ) (l : List (GVec × ℕ)) : List ℕ :=
  0 :: (((List.range (l.length - 1)).filter
      (fun i => decide (thresh < egAt K B l (i + 1) - egAt K B l i))).map (· + 1)
    ++ [l.length])

/-- Lines 152-157: `igall1 = igall[np.argsort(mixed-radix key)]` — the list in
canonical order. -/
def gvCanon (igall : List GVec) : List GVec :=
  reorder igall (argsort (igall.map (canonKey (gvNg igall))))

/-- Lines 160-163: the canonically ordered triples with their `np.arange`
original-order index attached (column 3). -/
def gvRows1 (igall : List GVec) : List (GVec × ℕ) :=
  (gvCanon igall).enum.map (fun p => (p.2, p.1))

/-- Line 164: `igall = igall[Eg <= Ecut1]` — the secondary-cutoff filter. -/
def gvKept (K : Vec3) (B : Mat3) (Ecut1 : ℚ) (igall : List GVec) : List (GVec × ℕ) :=
  (gvRows1 igall).filter (fun p => decide (etot K B p.1 ≤ Ecut1))

/-- Lines 166-168: `srt = np.argsort(Eg); igall = igall[srt]` — the final
energy sort. -/
def gvSrted (K : Vec3) (B : Mat3) (Ecut1 : ℚ) (igall : List GVec) : List (GVec × ℕ) :=
  reorder (gvKept K B Ecut1 igall)
    (argsort ((gvKept K B Ecut1 igall).map (fun p => etot K B p.1)))

/-- `gvectors.py` lines 150-172: post-processing of the accumulated list —
canonical reorder (`argsort` of the mixed-radix key), attachment of the
original-order index (`np.arange`), the `Ecut1` filter, the energy sort, and
the shell-bound filling.  The parallel array `Eg` of the source always holds
`etot` of the matching triple and is recomputed on demand here. -/
def sortIG (K : Vec3) (B : Mat3) (Ecut1 : ℚ) (thresh : ℚ) (igall : List GVec) :
    List Row :=
  fillShells ((gvSrted K B Ecut1 igall).map (fun p => Row.mk p.1 p.2 0 0))
    (gvWall K B thresh (gvSrted K B Ecut1 igall))

/-- `gvectors.py` lines 41-174: `calc_gvectors`.  `nplane = none` embeds the
default `np.Inf`.  The count validation (lines 135-149) precedes the NumPy
reduction that fails on an empty `igall` (line 151), embedded as the
`emptyTable` error. -/
def calc_gvectors (K : Vec3) (RecLattice : Mat3) (Ecut : ℚ) (nplane : Option ℕ)
    (Ecut1 : ℚ) (thresh : ℚ) (spinor : Bool) (nplanemax : ℕ) :
    Except GvErr (List Row) :=
  let Ecut1e := if Ecut1 ≤ 0 then Ecut else Ecut1
  let B := RecLattice
  match (gvIter K B Ecut nplane spinor nplanemax 0 ⟨[], List.replicate 10 true⟩).1 with
  | .error _ => .error .stuck
  | .ok igall =>
    let ncnt := igall.length
    let post : Except GvErr (List Row) :=
      if igall.isEmpty then .error .emptyTable
      else .ok (sortIG K B Ecut1e thresh igall)
    match nplane with
    | some np =>
      if spinor then
        if 2 * ncnt ≠ np then .error .countMismatch else post
      else
        if ncnt ≠ np then .error .countMismatch else post
    | none => post

/-- `np.round` on an exact rational: round half to even. -/
def npRound (q : ℚ) : ℤ :=
  let f := ⌊q⌋
  let r := q - (f : ℚ)
  if r < 1 / 2 then f else if 1 / 2 < r then f + 1 else if Even f then f else f + 1

/-- Determinant of a 3×3 rational matrix by cofactor expansion (exact value of
`np.linalg.det`). -/
def det3 (A : Mat3) : ℚ :=
  A 0 0 * (A 1 1 * A 2 2 - A 1 2 * A 2 1)
    - A 0 1 * (A 1 0 * A 2 2 - A 1 2 * A 2 0)
    + A 0 2 * (A 1 0 * A 2 1 - A 1 1 * A 2 0)

/-- Exact 3×3 inverse (`np.linalg.inv`), by the adjugate formula. -/
def inv3 (A : Mat3) : Mat3 :=
  let d := det3 A
  Matrix.of ![![ (A 1 1 * A 2 2 - A 1 2 * A 2 1) / d,
                -(A 0 1 * A 2 2 - A 0 2 * A 2 1) / d,
                 (A 0 1 * A 1 2 - A 0 2 * A 1 1) / d],
              ![-(A 1 0 * A 2 2 - A 1 2 * A 2 0) / d,
                 (A 0 0 * A 2 2 - A 0 2 * A 2 0) / d,
                -(A 0 0 * A 1 2 - A 0 2 * A 1 0) / d],
              ![ (A 1 0 * A 2 1 - A 1 1 * A 2 0) / d,
                -(A 0 0 * A 2 1 - A 0 1 * A 2 0) / d,
                 (A 0 0 * A 1 1 - A 0 1 * A 1 0) / d]]

/-- Errors raised by `transformed_g`: the `NotSymmetryError` of lines 214-219
and the no-pair `RuntimeError` of lines 232-241. -/
inductive TgErr where
  | notSymmetry : TgErr
  | noPair : TgErr
deriving DecidableEq

/-- `B = np.linalg.inv(A).T` (line 209). -/
def tgB (A : Mat3) : Mat3 := (inv3 A).transpose

/-- `kpt_ = B.dot(kpt)` (line 210). -/
def tgKpt (kpt : Vec3) (A : Mat3) : Vec3 := (tgB A).mulVec kpt

/-- `dkpt = np.array(np.round(kpt_ - kpt), dtype=int)` (line 211). -/
def tgDkpt (kpt : Vec3) (A : Mat3) : Fin 3 → ℤ :=
  fun i => npRound (tgKpt kpt A i - kpt i)

/-- `np.isclose(a, b)` with NumPy defaults: `|a - b| ≤ atol + rtol * |b|`. -/
def iscloseQ (a b : ℚ) : Prop := |a - b| ≤ 1e-8 + 1e-5 * |b|

instance (a b : ℚ) : Decidable (iscloseQ a b) := by unfold iscloseQ; infer_instance

/-- Line 214: `np.isclose(dkpt, kpt_ - kpt).all()`. -/
def tgClose (kpt : Vec3) (A : Mat3) : Prop :=
  ∀ i : Fin 3, iscloseQ ((tgDkpt kpt A i : ℚ)) (tgKpt kpt A i - kpt i)

instance (kpt : Vec3) (A : Mat3) : Decidable (tgClose kpt A) := by
  unfold tgClose; infer_instance

/-- Lines 221-222: `igTr = np.round(B.dot(ig[:3,:]) + dkpt[:,None])`, one
column at a time. -/
def tgImage (kpt : Vec3) (A : Mat3) (g : GVec) : GVec :=
  let v : Vec3 := (tgB A).mulVec (gvecToQ g) + (fun i => ((tgDkpt kpt A i : ℚ)))
  (npRound (v 0), npRound (v 1), npRound (v 2))

/-- Lines 228-231: scan of positions `ig[4,i] ≤ j < ig[5,i]` for the first
column whose first three rows equal `v`. -/
def findInShell (tb : List Row) (v : GVec) (s e : ℕ) : Option ℕ :=
  (List.range' s (e - s)).find? (fun j => decide ((tb.get? j).map Row.g = some v))

/-- Lines 227-241: the `for i in range(ng)` loop building `rotind`; processing
order is the list of column indices. -/
def rotindIdx (tb : List Row) (f : GVec → GVec) : List ℕ → Except TgErr (List ℕ)
  | [] => .ok []
  | i :: is =>
    match tb.get? i with
    | none => .error .noPair
    | some r =>
      match findInShell tb (f r.g) r.s r.e with
      | none => .error .noPair
      | some j => (rotindIdx tb f is).map (fun js => j :: js)

/-- `gvectors.py` lines 177-242: `transformed_g`.  (`RecLattice` is a parameter
of the source function but is unused in its body.) -/
def transformed_g (kpt : Vec3) (ig : List Row) (RecLattice : Mat3) (A : Mat3) :
    Except TgErr (List ℕ) :=
  if tgClose kpt A then
    rotindIdx ig (tgImage kpt A) (List.range ig.length)
  else .error .notSymmetry

/-- The phase exponent of `symm_eigenvalues` (line 289):
`np.linalg.inv(A).dot(T).dot(igall[:3,:] + K[:,None])` for one column. -/
def phaseExpE (A : Mat3) (T : Vec3) (K : Vec3) (g : GVec) : ℚ :=
  Matrix.dotProduct ((inv3 A).mulVec T) (gvecToQ g + K)

/-- The phase exponent of `symm_matrix` (line 347):
`A.dot(T).dot(igall[:3,:] + K[:,None])` for one column. -/
def phaseExpM (A : Mat3) (T : Vec3) (K : Vec3) (g : GVec) : ℚ :=
  Matrix.dotProduct (A.mulVec T) (gvecToQ g + K)

/-- Per-G-vector phase factor of `symm_eigenvalues` (lines 288-290):
`np.exp(-1j * (2*np.pi * inv(A).dot(T).dot(G + K)))`. -/
noncomputable def multZE (A : Mat3) (T : Vec3) (K : Vec3) (g : GVec) : ℂ :=
  Complex.exp (-Complex.I * (2 * (Real.pi : ℂ) * ((phaseExpE A T K g : ℚ) : ℂ)))

/-- Per-G-vector phase factor of `symm_matrix` (line 347):
`np.exp(-1j * (2*np.pi * A.dot(T).dot(G + K)))`. -/
noncomputable def multZM (A : Mat3) (T : Vec3) (K : Vec3) (g : GVec) : ℂ :=
  Complex.exp (-Complex.I * (2 * (Real.pi : ℂ) * ((phaseExpM A T K g : ℚ) : ℂ)))

/-- The G-vector stored in column `gi` of the table (`(0,0,0)` out of range). -/
def rowG (igall : List Row) (gi : ℕ) : GVec := (((igall.get? gi).map Row.g).getD (0, 0, 0))

/-- Entry `gi` of a rotation-map list (`0` out of range). -/
def rotAt (igrot : List ℕ) (gi : ℕ) : ℕ := (igrot.get? gi).getD 0

/-- `gvectors.py` lines 245-301: `symm_eigenvalues`.  Wavefunction matrices are
embedded as `WF : ℕ → ℕ → ℂ` (band, plane-wave column); for spinors the
spin-down block occupies columns `npw1, ..., 2*npw1 - 1` exactly as in the
source.  The result is the per-band trace function. -/
noncomputable def symm_eigenvalues (K : Vec3) (RecLattice : Mat3) (WF : ℕ → ℕ → ℂ)
    (igall : List Row) (A : Mat3) (S : Matrix (Fin 2) (Fin 2) ℂ) (T : Vec3)
    (spinor : Bool) : Except TgErr (ℕ → ℂ) :=
  let npw1 := igall.length
  let multZ : ℕ → ℂ := fun gi => multZE A T K (rowG igall gi)
  match transformed_g K igall RecLattice A with
  | .error err => .error err
  | .ok igrot =>
    let rot : ℕ → ℕ := rotAt igrot
    if spinor then
      .ok (fun m => ∑ gi ∈ Finset.range npw1,
        ((starRingEnd ℂ) (WF m (rot gi)) * WF m gi * S 0 0
          + ((starRingEnd ℂ) (WF m (rot gi + npw1)) * WF m (npw1 + gi) * S 1 1
            + (starRingEnd ℂ) (WF m (rot gi)) * WF m (npw1 + gi) * S 0 1
            + (starRingEnd ℂ) (WF m (rot gi + npw1)) * WF m gi * S 1 0)) * multZ gi)
    else
      .ok (fun m => ∑ gi ∈ Finset.range npw1,
        (starRingEnd ℂ) (WF m (rot gi)) * WF m gi * multZ gi)

/-- `gvectors.py` lines 304-355: `symm_matrix`, the full band-by-band matrix
`S_mn = <Psi_m|{A|T}|Psi_n>` (`einsum` expanded to explicit sums). -/
noncomputable def symm_matrix (K : Vec3) (RecLattice : Mat3) (WF : ℕ → ℕ → ℂ)
    (igall : List Row) (A : Mat3) (S : Matrix (Fin 2) (Fin 2) ℂ) (T : Vec3)
    (spinor : Bool) : Except TgErr (ℕ → ℕ → ℂ) :=
  let npw1 := igall.length
  let multZ : ℕ → ℂ := fun gi => multZM A T K (rowG igall gi)
  match transformed_g K igall RecLattice A with
  | .error err => .error err
  | .ok igrot =>
    let rot : ℕ → ℕ := rotAt igrot
    if spinor then
      .ok (fun m n => ∑ gi ∈ Finset.range npw1, ∑ sp : Fin 2, ∑ tp : Fin 2,
        (starRingEnd ℂ) (WF m (rot gi + sp.val * npw1)) * WF n (tp.val * npw1 + gi)
          * multZ gi * S sp tp)
    else
      .ok (fun m n => ∑ gi ∈ Finset.range npw1,
        (starRingEnd ℂ) (WF m (rot gi)) * WF n gi * multZ gi)

/-- Orthonormality of the first `nb` bands over `ncols` plane-wave columns. -/
def orthonormalWF (WF : ℕ → ℕ → ℂ) (nb ncols : ℕ) : Prop :=
  ∀ m < nb, ∀ n < nb,
    (∑ gi ∈ Finset.range ncols, (starRingEnd ℂ) (WF m gi) * WF n gi)
      = if m = n then 1 else 0

/-! Auxiliary notions used by the verification, and the concrete inputs of the
witnesses and counterexamples. -/

/-- The L1 norm `|g1| + |g2| + |g3|` of an integer triple. -/
def l1normZ (g : GVec) : ℤ := |g.1| + |g.2.1| + |g.2.2|

/-- The triples accumulated by radii `N, N+1, ..., N+k-1` of the enumeration. -/
def radiiConcat (K : Vec3) (B : Mat3) (Ecut : ℚ) : ℕ → ℕ → List GVec
  | _, 0 => []
  | N, k + 1 => radiusAdd K B Ecut N ++ radiiConcat K B Ecut (N + 1) k

/-- The Γ point. -/
def cK0 : Vec3 := ![0, 0, 0]

/-- A unit cubic reciprocal lattice. -/
def cB1 : Mat3 := 1

/-- An anisotropic orthorhombic reciprocal lattice. -/
def cBaniso : Mat3 := Matrix.of ![![1, 0, 0], ![0, 10, 0], ![0, 0, 10]]

/-- A non-symmetry transformation (doubling along x) whose dual rounds distinct
G-vectors onto the same lattice point. -/
def cA2 : Mat3 := Matrix.of ![![2, 0, 0], ![0, 1, 0], ![0, 0, 1]]

/-- The fourfold rotation about z (as a basis transformation). -/
def cA4 : Mat3 := Matrix.of ![![0, -1, 0], ![1, 0, 0], ![0, 0, 1]]

/-- Spatial inversion. -/
def cAneg : Mat3 := Matrix.of ![![-1, 0, 0], ![0, -1, 0], ![0, 0, -1]]

/-- The k-point (1/2, 0, 0). -/
def cK7 : Vec3 := ![1/2, 0, 0]

/-- The k-point (1/4, 0, 0). -/
def cK14 : Vec3 := ![1/4, 0, 0]

/-- The exact kinetic energy of a unit G-vector on the cubic lattice `cB1`
at the Γ point: `1 / twomhbar2`. -/
def cEcutUnit : ℚ := 1000000000 / 262465831

/-- A hand-built one-shell G-vector table: the origin alone, then the six unit
vectors in one energy shell (the table `calc_gvectors cK0 cB1 2 ...` produces,
up to the order within the degenerate shell). -/
def ctable4 : List Row :=
  [⟨(0, 0, 0), 0, 0, 1⟩, ⟨(1, 0, 0), 1, 1, 7⟩, ⟨(-1, 0, 0), 2, 1, 7⟩,
   ⟨(0, 1, 0), 3, 1, 7⟩, ⟨(0, -1, 0), 4, 1, 7⟩, ⟨(0, 0, 1), 5, 1, 7⟩,
   ⟨(0, 0, -1), 6, 1, 7⟩]

/-- A single normalized band supported on the columns of `(0,1,0)` and
`(-1,0,0)` in `ctable4`. -/
noncomputable def cWF4 : ℕ → ℕ → ℂ := fun m gi =>
  if m = 0 then (if gi = 3 then 3/5 else if gi = 2 then 4/5 else 0) else 0

/-- The fractional translation (1/4, 0, 0). -/
def cT4 : Vec3 := ![1/4, 0, 0]

/-- The one-row table produced by `calc_gvectors cK0 cB1 1 none (-1) 1e-3 true 2`. -/
def c5table : List Row := [⟨(0, 0, 0), 0, 0, 1⟩]

/-- A hand-built two-row table (the origin and `(-1,0,0)` sharing one shell), on
which inversion at `kpt = (1/2, 0, 0)` acts as the swap of the two columns. -/
def c7table : List Row := [⟨(0, 0, 0), 0, 0, 2⟩, ⟨(-1, 0, 0), 1, 0, 2⟩]

/-- The per-band trace `symm_eigenvalues` computes on the `ctable4` instance
(fourfold rotation `cA4`, translation `cT4`, Γ point, no spin). -/
noncomputable def cEig4 : ℕ → ℂ := fun m =>
  ∑ gi ∈ Finset.range ctable4.length,
    (starRingEnd ℂ) (cWF4 m (rotAt [0, 3, 4, 2, 1, 5, 6] gi)) * cWF4 m gi
      * multZE cA4 cT4 cK0 (rowG ctable4 gi)

/-- The band-by-band matrix `symm_matrix` computes on the same instance. -/
noncomputable def cMat4 : ℕ → ℕ → ℂ := fun m n =>
  ∑ gi ∈ Finset.range ctable4.length,
    (starRingEnd ℂ) (cWF4 m (rotAt [0, 3, 4, 2, 1, 5, 6] gi)) * cWF4 n gi
      * multZM cA4 cT4 cK0 (rowG ctable4 gi)

/-- The trace `symm_eigenvalues` computes on the one-row table `c5table` with
the identity rotation and translation `cT4`. -/
noncomputable def cEigId : ℕ → ℂ := fun m =>
  ∑ gi ∈ Finset.range c5table.length,
    (starRingEnd ℂ) (cWF4 m (rotAt [0] gi)) * cWF4 m gi
      * multZE 1 cT4 cK0 (rowG c5table gi)

/-- The matrix `symm_matrix` computes on the same `c5table` instance. -/
noncomputable def cMatId : ℕ → ℕ → ℂ := fun m n =>
  ∑ gi ∈ Finset.range c5table.length,
    (starRingEnd ℂ) (cWF4 m (rotAt [0] gi)) * cWF4 n gi
      * multZM 1 cT4 cK0 (rowG c5table gi)

/-! ### Enumeration lemmas (the triple-nested loop of `calc_gvectors`) -/

theorem mem_intRange {a b x : ℤ} : x ∈ intRange a b ↔ a ≤ x ∧ x ≤ b := by
  rw [intRange, List.mem_map]
  constructor
  · rintro ⟨k, hk, hke⟩
    rw [List.mem_range] at hk
    have he : a + (k : ℤ) = x := hke
    omega
  · rintro ⟨h1, h2⟩
    refine ⟨(x - a).toNat, ?_, ?_⟩
    · rw [List.mem_range]
      omega
    · show a + ((x - a).toNat : ℤ) = x
      omega

theorem nodup_intRange {a b : ℤ} : (intRange a b).Nodup := by
  refine List.Nodup.map ?_ (List.nodup_range _)
  intro i j h
  have h2 : a + (i : ℤ) = a + (j : ℤ) := h
  omega

theorem mem_g1List {m x : ℤ} (hm : 0 ≤ m) : x ∈ g1List m ↔ |x| = m := by
  rw [g1List, abs_eq hm]
  by_cases h : m = 0
  · simp [h]
  · simp [h, or_comm]

theorem nodup_g1List {m : ℤ} (hm : 0 ≤ m) : (g1List m).Nodup := by
  rw [g1List]
  by_cases h : m = 0
  · simp [h]
  · simp [h]
    omega

theorem mem_shellTriples {N : ℕ} {g : GVec} :
    g ∈ shellTriples N ↔ l1normZ g = (N : ℤ) := by
  obtain ⟨x, y, z⟩ := g
  rw [shellTriples, List.mem_flatMap]
  constructor
  · rintro ⟨ig3, h3, hin⟩
    rw [List.mem_flatMap] at hin
    obtain ⟨ig2, h2, hin2⟩ := hin
    rw [List.mem_map] at hin2
    obtain ⟨ig1, h1, heq⟩ := hin2
    rw [mem_intRange] at h3 h2
    have hy : |ig2| ≤ (N : ℤ) - |ig3| := abs_le.mpr h2
    have hm : (0 : ℤ) ≤ (N : ℤ) - |ig3| - |ig2| := by omega
    have hx := (mem_g1List hm).mp h1
    rw [← heq]
    simp only [l1normZ]
    omega
  · intro h
    simp only [l1normZ] at h
    refine ⟨z, mem_intRange.mpr ⟨?_, ?_⟩, ?_⟩
    · simp only [Int.abs_eq_natAbs] at h
      omega
    · simp only [Int.abs_eq_natAbs] at h
      omega
    rw [List.mem_flatMap]
    refine ⟨y, mem_intRange.mpr ⟨?_, ?_⟩, ?_⟩
    · simp only [Int.abs_eq_natAbs] at h ⊢
      omega
    · simp only [Int.abs_eq_natAbs] at h ⊢
      omega
    rw [List.mem_map]
    refine ⟨x, (mem_g1List ?_).mpr ?_, rfl⟩
    · simp only [Int.abs_eq_natAbs] at h ⊢
      omega
    · simp only [Int.abs_eq_natAbs] at h ⊢
      omega

theorem thirdOf_mem_inner {N : ℕ} {ig3 : ℤ} {p : GVec}
    (hp : p ∈ (intRange (-((N : ℤ) - |ig3|)) ((N : ℤ) - |ig3|)).flatMap (fun ig2 =>
      (g1List ((N : ℤ) - |ig3| - |ig2|)).map (fun ig1 => ((ig1, ig2, ig3) : GVec)))) :
    p.2.2 = ig3 := by
  rw [List.mem_flatMap] at hp
  obtain ⟨ig2, _, hin⟩ := hp
  rw [List.mem_map] at hin
  obtain ⟨ig1, _, he⟩ := hin
  rw [← he]

theorem nodup_shellTriples {N : ℕ} : (shellTriples N).Nodup := by
  rw [shellTriples, List.nodup_flatMap]
  constructor
  · intro ig3 h3
    rw [List.nodup_flatMap]
    constructor
    · intro ig2 h2
      refine List.Nodup.map ?_ ?_
      · intro a b hab
        simpa [Prod.ext_iff] using hab
      · rw [mem_intRange] at h2
        refine nodup_g1List ?_
        have := abs_le.mpr h2
        omega
    · refine List.Pairwise.imp ?_ nodup_intRange
      intro ig2 ig2' hne p hp hp'
      rw [List.mem_map] at hp hp'
      obtain ⟨a, _, ha⟩ := hp
      obtain ⟨b, _, hb⟩ := hp'
      apply hne
      have he1 : p.2.1 = ig2 := by rw [← ha]
      have he2 : p.2.1 = ig2' := by rw [← hb]
      rw [← he1, ← he2]
  · refine List.Pairwise.imp ?_ nodup_intRange
    intro ig3 ig3' hne p hp hp'
    exact hne ((thirdOf_mem_inner hp).symm.trans (thirdOf_mem_inner hp'))

theorem l1normZ_nonneg (g : GVec) : 0 ≤ l1normZ g := by
  simp only [l1normZ, Int.abs_eq_natAbs]
  omega

theorem nodup_flatten_shellTriples {M : ℕ} :
    ((List.range M).flatMap shellTriples).Nodup := by
  rw [List.nodup_flatMap]
  refine ⟨fun _ _ => nodup_shellTriples, ?_⟩
  refine List.Pairwise.imp ?_ (List.nodup_range M)
  intro a b hne p hp hp'
  rw [mem_shellTriples] at hp hp'
  apply hne
  have : (a : ℤ) = (b : ℤ) := hp.symm.trans hp'
  exact_mod_cast this

theorem mem_flatten_shellTriples {M : ℕ} {g : GVec} :
    g ∈ (List.range M).flatMap shellTriples ↔ l1normZ g < (M : ℤ) := by
  rw [List.mem_flatMap]
  constructor
  · rintro ⟨N, hN, hg⟩
    rw [List.mem_range] at hN
    rw [mem_shellTriples] at hg
    omega
  · intro h
    have h0 := l1normZ_nonneg g
    refine ⟨(l1normZ g).toNat, ?_, ?_⟩
    · rw [List.mem_range]
      omega
    · rw [mem_shellTriples]
      omega

/-! ### Lemmas on the enumeration loop of `calc_gvectors` -/

theorem mem_radiusAdd {K : Vec3} {B : Mat3} {Ecut : ℚ} {N : ℕ} {g : GVec} :
    g ∈ radiusAdd K B Ecut N ↔ l1normZ g = (N : ℤ) ∧ etot K B g < Ecut := by
  rw [radiusAdd, List.mem_filter]
  simp [mem_shellTriples]

theorem nodup_radiusAdd {K : Vec3} {B : Mat3} {Ecut : ℚ} {N : ℕ} :
    (radiusAdd K B Ecut N).Nodup :=
  List.Nodup.filter _ nodup_shellTriples

theorem mem_radiiConcat {K : Vec3} {B : Mat3} {Ecut : ℚ} :
    ∀ (k N : ℕ) (g : GVec), g ∈ radiiConcat K B Ecut N k ↔
      ((N : ℤ) ≤ l1normZ g ∧ l1normZ g < (N : ℤ) + k ∧ etot K B g < Ecut) := by
  intro k
  induction k with
  | zero =>
    intro N g
    simp [radiiConcat]
    omega
  | succ k ih =>
    intro N g
    show g ∈ radiusAdd K B Ecut N ++ radiiConcat K B Ecut (N + 1) k ↔ _
    rw [List.mem_append, mem_radiusAdd, ih (N + 1) g]
    push_cast
    constructor
    · rintro (⟨h1, h2⟩ | ⟨h1, h2, h3⟩) <;> refine ⟨by omega, by omega, by assumption⟩
    · rintro ⟨h1, h2, h3⟩
      by_cases hN : l1normZ g = (N : ℤ)
      · exact Or.inl ⟨hN, h3⟩
      · exact Or.inr ⟨by omega, by omega, h3⟩

theorem nodup_radiiConcat {K : Vec3} {B : Mat3} {Ecut : ℚ} :
    ∀ (k N : ℕ), (radiiConcat K B Ecut N k).Nodup := by
  intro k
  induction k with
  | zero => intro N; exact List.nodup_nil
  | succ k ih =>
    intro N
    show (radiusAdd K B Ecut N ++ radiiConcat K B Ecut (N + 1) k).Nodup
    refine List.Nodup.append nodup_radiusAdd (ih (N + 1)) ?_
    intro g hg hg'
    rw [mem_radiusAdd] at hg
    rw [mem_radiiConcat] at hg'
    push_cast at hg'
    omega

theorem gvIter_ok_eq {K : Vec3} {B : Mat3} {Ecut : ℚ} {np : Option ℕ} {sp : Bool} :
    ∀ (fuel N : ℕ) (st : GvState) (l : List GVec),
      (gvIter K B Ecut np sp fuel N st).1 = .ok l →
      ∃ k, k ≤ fuel ∧ l = st.igall ++ radiiConcat K B Ecut N k := by
  intro fuel
  induction fuel with
  | zero =>
    intro N st l h
    refine ⟨0, le_refl 0, ?_⟩
    have : st.igall = l := by simpa [gvIter] using h
    simp [radiiConcat, this]
  | succ fuel ih =>
    intro N st l h
    rcases np with _ | np
    · simp only [gvIter] at h
      obtain ⟨k, hk, he⟩ := ih (N + 1) _ l h
      refine ⟨k + 1, by omega, ?_⟩
      rw [he]
      show st.igall ++ radiusAdd K B Ecut N ++ _ = _
      rw [List.append_assoc]
      rfl
    · simp only [gvIter] at h
      split_ifs at h with h1 h2 h3 h4 <;>
      first
        | (have hl : st.igall = l := by simpa using h
           exact ⟨0, by omega, by simp [radiiConcat, hl]⟩)
        | (obtain ⟨k, hk, he⟩ := ih (N + 1) _ l h
           refine ⟨k + 1, by omega, ?_⟩
           rw [he]
           show st.igall ++ radiusAdd K B Ecut N ++ _ = _
           rw [List.append_assoc]
           rfl)

theorem gvIter_count_le {K : Vec3} {B : Mat3} {Ecut : ℚ} {np : Option ℕ} {sp : Bool} :
    ∀ (fuel N : ℕ) (st : GvState), (gvIter K B Ecut np sp fuel N st).2 ≤ fuel := by
  intro fuel
  induction fuel with
  | zero => intro N st; simp [gvIter]
  | succ fuel ih =>
    intro N st
    rcases np with _ | np
    · simp only [gvIter]
      exact Nat.succ_le_succ (ih (N + 1) _)
    · simp only [gvIter]
      split_ifs <;>
      first
        | exact Nat.succ_le_succ (ih (N + 1) _)
        | exact show 1 ≤ fuel + 1 by omega

theorem gvIter_none_empty {K : Vec3} {B : Mat3} {Ecut : ℚ} {sp : Bool} :
    ∀ (fuel N : ℕ) (st : GvState),
      (∀ M : ℕ, N ≤ M → M < N + fuel → radiusAdd K B Ecut M = []) →
      (gvIter K B Ecut none sp fuel N st).1 = .ok st.igall := by
  intro fuel
  induction fuel with
  | zero => intro N st _; simp [gvIter]
  | succ fuel ih =>
    intro N st hemp
    simp only [gvIter]
    have hN : radiusAdd K B Ecut N = [] := hemp N (le_refl N) (by omega)
    have := ih (N + 1) ⟨st.igall ++ radiusAdd K B Ecut N, st.memory.tail ++ [(radiusAdd K B Ecut N).isEmpty]⟩
      (fun M h1 h2 => hemp M (by omega) (by omega))
    rw [hN] at this
    simpa [hN] using this

/-! ### Sorting and reindexing lemmas (`np.argsort` and fancy indexing) -/

instance {α : Type} [LinearOrder α] : IsTotal (ℕ × α) keyIdxLe := by
  constructor
  intro p q
  rcases lt_trichotomy p.2 q.2 with h | h | h
  · exact Or.inl (Or.inl h)
  · rcases Nat.le_total p.1 q.1 with h1 | h1
    · exact Or.inl (Or.inr ⟨h, h1⟩)
    · exact Or.inr (Or.inr ⟨h.symm, h1⟩)
  · exact Or.inr (Or.inl h)

instance {α : Type} [LinearOrder α] : IsTrans (ℕ × α) keyIdxLe := by
  constructor
  intro p q r hpq hqr
  rcases hpq with h1 | ⟨h1, h1'⟩
  · rcases hqr with h2 | ⟨h2, h2'⟩
    · exact Or.inl (h1.trans h2)
    · exact Or.inl (h2 ▸ h1)
  · rcases hqr with h2 | ⟨h2, h2'⟩
    · exact Or.inl (h1 ▸ h2)
    · exact Or.inr ⟨h1.trans h2, h1'.trans h2'⟩

theorem filterMap_get?_range {α : Type} (l : List α) :
    (List.range l.length).filterMap (fun i => l.get? i) = l := by
  induction l with
  | nil => rfl
  | cons a xs ih =>
    show (List.range (xs.length + 1)).filterMap (fun i => (a :: xs).get? i) = a :: xs
    rw [List.range_succ_eq_map, List.filterMap_cons, List.filterMap_map]
    show a :: List.filterMap ((fun i => (a :: xs).get? i) ∘ Nat.succ) (List.range xs.length)
        = a :: xs
    have hc : ((fun i => (a :: xs).get? i) ∘ Nat.succ) = fun i => xs.get? i := by
      funext i
      simp [Function.comp]
    rw [hc, ih]

theorem reorder_perm {α : Type} {l : List α} {idxs : List ℕ}
    (h : idxs.Perm (List.range l.length)) : (reorder l idxs).Perm l := by
  unfold reorder
  have h2 := List.Perm.filterMap (fun i => l.get? i) h
  rwa [filterMap_get?_range] at h2

theorem argsort_perm {α : Type} [LinearOrder α] (keys : List α) :
    (argsort keys).Perm (List.range keys.length) := by
  unfold argsort
  have h := List.perm_insertionSort keyIdxLe keys.enum
  have h2 := List.Perm.map Prod.fst h
  rwa [List.enum_map_fst] at h2

theorem pairwise_key_reorder_argsort {α β : Type} [LinearOrder β] (key : α → β)
    (l : List α) :
    (reorder l (argsort (l.map key))).Pairwise (fun a b => key a ≤ key b) := by
  unfold reorder
  rw [List.pairwise_filterMap]
  unfold argsort
  rw [List.pairwise_map]
  have hsorted : List.Sorted keyIdxLe (List.insertionSort keyIdxLe (l.map key).enum) :=
    List.sorted_insertionSort _ _
  refine List.Pairwise.imp_of_mem ?_ hsorted
  intro p q hp hq hle
  intro b hb b' hb'
  have hpe : p ∈ (l.map key).enum := (List.perm_insertionSort keyIdxLe _).mem_iff.mp hp
  have hqe : q ∈ (l.map key).enum := (List.perm_insertionSort keyIdxLe _).mem_iff.mp hq
  obtain ⟨i, x⟩ := p
  obtain ⟨j, y⟩ := q
  obtain ⟨hilt, hix⟩ := List.mem_enum hpe
  obtain ⟨hjlt, hjy⟩ := List.mem_enum hqe
  have hkb : key b = x := by
    have h1 : (l.map key).get? i = some (key b) := by
      rw [List.get?_map, hb]
      rfl
    have h2 : (l.map key).get? i = some x := by
      rw [List.get?_eq_get (by simpa using hilt)]
      exact congrArg some (by simpa using hix.symm)
    exact Option.some.inj (h1.symm.trans h2)
  have hkb' : key b' = y := by
    have h1 : (l.map key).get? j = some (key b') := by
      rw [List.get?_map, hb']
      rfl
    have h2 : (l.map key).get? j = some y := by
      rw [List.get?_eq_get (by simpa using hjlt)]
      exact congrArg some (by simpa using hjy.symm)
    exact Option.some.inj (h1.symm.trans h2)
  rw [hkb, hkb']
  rcases hle with h | ⟨h, _⟩
  · exact le_of_lt h
  · exact le_of_eq h

/-! ### Lemmas on the shell-bound filling (`wall` and the slice loop) -/

theorem pairwise_mem_cases {α : Type} {R : α → α → Prop} {l : List α}
    (h : l.Pairwise R) {a b : α} (ha : a ∈ l) (hb : b ∈ l) :
    a = b ∨ R a b ∨ R b a := by
  rw [List.mem_iff_get] at ha hb
  obtain ⟨i, rfl⟩ := ha
  obtain ⟨j, rfl⟩ := hb
  rcases Nat.lt_trichotomy i j with hij | hij | hij
  · exact Or.inr (Or.inl ((List.pairwise_iff_get.mp h) i j hij))
  · exact Or.inl (congrArg l.get (Fin.ext hij))
  · exact Or.inr (Or.inr ((List.pairwise_iff_get.mp h) j i hij))

theorem zip_tail_fst_mem {l : List ℕ} {p : ℕ × ℕ} (hp : p ∈ l.zip l.tail) :
    p.1 ∈ l ∧ p.2 ∈ l := by
  obtain ⟨x, y⟩ := p
  have h := List.mem_zip hp
  exact ⟨h.1, List.mem_of_mem_tail h.2⟩

theorem zip_tail_lt {l : List ℕ} (hs : l.Pairwise (· < ·)) :
    ∀ p ∈ l.zip l.tail, p.1 < p.2 := by
  induction l with
  | nil => intro p hp; simp at hp
  | cons a rest ih =>
    intro p hp
    cases rest with
    | nil => simp at hp
    | cons b rest' =>
      have hp2 : p = (a, b) ∨ p ∈ (b :: rest').zip rest' := by simpa using hp
      rcases hp2 with rfl | hmem
      · exact (List.pairwise_cons.mp hs).1 b (by simp)
      · exact ih (List.pairwise_cons.mp hs).2 _ hmem

theorem zip_tail_chain {l : List ℕ} (hs : l.Pairwise (· < ·)) :
    (l.zip l.tail).Pairwise (fun p q => p.2 ≤ q.1) := by
  induction l with
  | nil => simp
  | cons a rest ih =>
    cases rest with
    | nil => simp
    | cons b rest' =>
      have hs' := (List.pairwise_cons.mp hs).2
      show ((a, b) :: ((b :: rest').zip rest')).Pairwise _
      rw [List.pairwise_cons]
      refine ⟨?_, ih hs'⟩
      intro q hq
      have hq1 : q.1 ∈ b :: rest' := (zip_tail_fst_mem hq).1
      rw [List.mem_cons] at hq1
      rcases hq1 with hq1' | hq1'
      · exact le_of_eq hq1'.symm
      · exact le_of_lt ((List.pairwise_cons.mp hs').1 q.1 hq1')

theorem zip_tail_adjacent : ∀ (l : List ℕ), l.Pairwise (· < ·) →
    ∀ a b, (a, b) ∈ l.zip l.tail → ∀ w ∈ l, w ≤ a ∨ b ≤ w := by
  intro l
  induction l with
  | nil => intro _ a b hab; simp at hab
  | cons x rest ih =>
    intro hs a b hab w hw
    cases rest with
    | nil => simp at hab
    | cons y rest' =>
      have hs1 := (List.pairwise_cons.mp hs).1
      have hs2 := (List.pairwise_cons.mp hs).2
      have hab2 : ((a, b) : ℕ × ℕ) = (x, y) ∨ (a, b) ∈ (y :: rest').zip rest' := by
        simpa using hab
      rw [List.mem_cons] at hw
      rcases hab2 with heq | hmem
      · have hxa : x = a := (congrArg Prod.fst heq).symm
        have hyb : y = b := (congrArg Prod.snd heq).symm
        subst hxa
        subst hyb
        rcases hw with rfl | hw'
        · exact Or.inl (le_refl w)
        · right
          rw [List.mem_cons] at hw'
          rcases hw' with rfl | hw''
          · exact le_refl w
          · exact le_of_lt ((List.pairwise_cons.mp hs2).1 w hw'')
      · rcases hw with rfl | hw'
        · exact Or.inl (le_of_lt (hs1 a (zip_tail_fst_mem hmem).1))
        · exact ih hs2 a b hmem w hw'

theorem exists_cover : ∀ (rest : List ℕ) (a j : ℕ), a ≤ j →
    (∃ b ∈ a :: rest, j < b) →
    ∃ p ∈ (a :: rest).zip rest, p.1 ≤ j ∧ j < p.2 := by
  intro rest
  induction rest with
  | nil =>
    intro a j ha hb
    obtain ⟨b, hb1, hb2⟩ := hb
    rw [List.mem_singleton] at hb1
    omega
  | cons b rest' ih =>
    intro a j ha hex
    by_cases hjb : j < b
    · exact ⟨(a, b), by simp, ha, hjb⟩
    · have hble : b ≤ j := by omega
      obtain ⟨c, hc1, hc2⟩ := hex
      rw [List.mem_cons] at hc1
      have hc3 : c ∈ b :: rest' := by
        rcases hc1 with rfl | hc1'
        · omega
        · exact hc1'
      obtain ⟨p, hp1, hp2⟩ := ih b j hble ⟨c, hc3, hc2⟩
      exact ⟨p, by right; exact hp1, hp2⟩

theorem setSlice_get? (a b : ℕ) (rows : List Row) (j : ℕ) :
    (setSlice a b rows).get? j =
      (rows.get? j).map (fun r => if a ≤ j ∧ j < b then { r with s := a, e := b } else r) := by
  unfold setSlice
  rw [List.get?_map, List.enum_get?]
  cases rows.get? j <;> simp

theorem setSlice_map_g (a b : ℕ) (rows : List Row) :
    (setSlice a b rows).map Row.g = rows.map Row.g := by
  unfold setSlice
  rw [List.map_map]
  have hfun : (Row.g ∘ fun p : ℕ × Row =>
      if a ≤ p.1 ∧ p.1 < b then { p.2 with s := a, e := b } else p.2) = Row.g ∘ Prod.snd := by
    funext p
    by_cases h : a ≤ p.1 ∧ p.1 < b <;> simp [h]
  rw [hfun, ← List.map_map, List.enum_map_snd]

theorem foldl_setSlice_map_g : ∀ (pairs : List (ℕ × ℕ)) (rows : List Row),
    (pairs.foldl (fun rs p => setSlice p.1 p.2 rs) rows).map Row.g = rows.map Row.g := by
  intro pairs
  induction pairs with
  | nil => intro rows; rfl
  | cons q ps ih =>
    intro rows
    show (ps.foldl _ (setSlice q.1 q.2 rows)).map Row.g = _
    rw [ih, setSlice_map_g]

theorem fillShells_map_g (rows : List Row) (wall : List ℕ) :
    (fillShells rows wall).map Row.g = rows.map Row.g :=
  foldl_setSlice_map_g _ rows

theorem foldl_setSlice_not_covered : ∀ (pairs : List (ℕ × ℕ)) (rows : List Row) (j : ℕ),
    (∀ p ∈ pairs, ¬(p.1 ≤ j ∧ j < p.2)) →
    (pairs.foldl (fun rs p => setSlice p.1 p.2 rs) rows).get? j = rows.get? j := by
  intro pairs
  induction pairs with
  | nil => intro rows j _; rfl
  | cons q ps ih =>
    intro rows j hnc
    show (ps.foldl _ (setSlice q.1 q.2 rows)).get? j = _
    rw [ih (setSlice q.1 q.2 rows) j (fun p hp => hnc p (List.mem_cons_of_mem q hp))]
    rw [setSlice_get?]
    have hq : ¬(q.1 ≤ j ∧ j < q.2) := hnc q (List.mem_cons_self q ps)
    cases rows.get? j <;> simp [hq]

theorem foldl_setSlice_covered : ∀ (pairs : List (ℕ × ℕ)) (rows : List Row) (j a b : ℕ),
    pairs.Pairwise (fun p q => p.2 ≤ q.1) → (a, b) ∈ pairs → a ≤ j → j < b →
    (pairs.foldl (fun rs p => setSlice p.1 p.2 rs) rows).get? j =
      (rows.get? j).map (fun r => { r with s := a, e := b }) := by
  intro pairs
  induction pairs with
  | nil => intro rows j a b _ hmem; simp at hmem
  | cons q ps ih =>
    intro rows j a b hpw hmem haj hjb
    have hpw1 := (List.pairwise_cons.mp hpw).1
    have hpw2 := (List.pairwise_cons.mp hpw).2
    rw [List.mem_cons] at hmem
    show (ps.foldl _ (setSlice q.1 q.2 rows)).get? j = _
    rcases hmem with heq | hmem'
    · have hq1 : q.1 = a := by rw [← heq]
      have hq2 : q.2 = b := by rw [← heq]
      have hlater : ∀ p ∈ ps, ¬(p.1 ≤ j ∧ j < p.2) := by
        intro p hp hc
        have hle := hpw1 p hp
        omega
      rw [foldl_setSlice_not_covered ps _ j hlater, setSlice_get?, hq1, hq2]
      cases rows.get? j <;> simp [haj, hjb]
    · have hqa : q.2 ≤ a := hpw1 (a, b) hmem'
      have hnc : ¬(q.1 ≤ j ∧ j < q.2) := by omega
      rw [ih (setSlice q.1 q.2 rows) j a b hpw2 hmem' haj hjb, setSlice_get?]
      cases rows.get? j <;> simp [hnc]

theorem wall_sorted (K : Vec3) (B : Mat3) (thresh : ℚ) (l : List (GVec × ℕ))
    (hn : 1 ≤ l.length) : (gvWall K B thresh l).Pairwise (· < ·) := by
  unfold gvWall
  rw [List.pairwise_cons]
  constructor
  · intro m hm
    rw [List.mem_append] at hm
    rcases hm with hm | hm
    · rw [List.mem_map] at hm
      obtain ⟨i, _, rfl⟩ := hm
      omega
    · rw [List.mem_singleton] at hm
      omega
  · rw [List.pairwise_append]
    refine ⟨?_, List.pairwise_singleton _ _, ?_⟩
    · rw [List.pairwise_map]
      refine List.Pairwise.imp ?_ (List.Pairwise.filter _ (List.pairwise_lt_range _))
      intro a b h
      omega
    · intro a ha b hb
      rw [List.mem_map] at ha
      obtain ⟨i, hi, rfl⟩ := ha
      rw [List.mem_filter, List.mem_range] at hi
      rw [List.mem_singleton] at hb
      subst hb
      have := hi.1
      omega

theorem mem_wall_iff (K : Vec3) (B : Mat3) (thresh : ℚ) (l : List (GVec × ℕ)) {m : ℕ}
    (h0 : 0 < m) (hn : m < l.length) :
    m ∈ gvWall K B thresh l ↔ thresh < egAt K B l m - egAt K B l (m - 1) := by
  unfold gvWall
  rw [List.mem_cons, List.mem_append, List.mem_singleton]
  constructor
  · rintro (h | h | h)
    · omega
    · rw [List.mem_map] at h
      obtain ⟨i, hi, hieq⟩ := h
      rw [List.mem_filter, List.mem_range] at hi
      have hieq2 : i = m - 1 := by omega
      subst hieq2
      have hd := of_decide_eq_true hi.2
      have hm1 : m - 1 + 1 = m := by omega
      rwa [hm1] at hd
    · omega
  · intro h
    right
    left
    rw [List.mem_map]
    refine ⟨m - 1, ?_, by omega⟩
    rw [List.mem_filter, List.mem_range]
    refine ⟨by omega, ?_⟩
    rw [decide_eq_true_iff]
    have hm1 : m - 1 + 1 = m := by omega
    rwa [hm1]

theorem wall_cover (K : Vec3) (B : Mat3) (thresh : ℚ) (l : List (GVec × ℕ)) {j : ℕ}
    (hj : j < l.length) :
    ∃ a b, (a, b) ∈ (gvWall K B thresh l).zip (gvWall K B thresh l).tail ∧
      a ≤ j ∧ j < b := by
  unfold gvWall
  obtain ⟨p, hp, h1, h2⟩ := exists_cover (((List.range (l.length - 1)).filter
      (fun i => decide (thresh < egAt K B l (i + 1) - egAt K B l i))).map (· + 1)
    ++ [l.length]) 0 j (Nat.zero_le j) ⟨l.length, by simp, hj⟩
  exact ⟨p.1, p.2, hp, h1, h2⟩

theorem wall_le_length (K : Vec3) (B : Mat3) (thresh : ℚ) (l : List (GVec × ℕ)) :
    ∀ w ∈ gvWall K B thresh l, w ≤ l.length := by
  intro w hw
  unfold gvWall at hw
  rw [List.mem_cons, List.mem_append, List.mem_singleton] at hw
  rcases hw with rfl | hw | rfl
  · omega
  · rw [List.mem_map] at hw
    obtain ⟨i, hi, rfl⟩ := hw
    rw [List.mem_filter, List.mem_range] at hi
    have := hi.1
    omega
  · omega

theorem setSlice_length (a b : ℕ) (rows : List Row) :
    (setSlice a b rows).length = rows.length := by
  unfold setSlice
  rw [List.length_map, List.enum_length]

theorem foldl_setSlice_length : ∀ (pairs : List (ℕ × ℕ)) (rows : List Row),
    (pairs.foldl (fun rs p => setSlice p.1 p.2 rs) rows).length = rows.length := by
  intro pairs
  induction pairs with
  | nil => intro rows; rfl
  | cons q ps ih =>
    intro rows
    show (ps.foldl _ (setSlice q.1 q.2 rows)).length = _
    rw [ih, setSlice_length]

theorem fillShells_length (rows : List Row) (wall : List ℕ) :
    (fillShells rows wall).length = rows.length :=
  foldl_setSlice_length _ rows

theorem fill_wall_spec (K : Vec3) (B : Mat3) (thresh : ℚ) (srted : List (GVec × ℕ)) :
    ∀ (j : ℕ) (r : Row),
      (fillShells (srted.map (fun p => Row.mk p.1 p.2 0 0)) (gvWall K B thresh srted)).get? j
        = some r →
      (∃ p, srted.get? j = some p ∧ r.g = p.1 ∧ r.idx = p.2) ∧
      (r.s ≤ j ∧ j < r.e) ∧
      (∀ k rk, (fillShells (srted.map (fun p => Row.mk p.1 p.2 0 0))
            (gvWall K B thresh srted)).get? k = some rk →
          r.s ≤ k → k < r.e → rk.s = r.s ∧ rk.e = r.e) ∧
      (j + 1 < r.e → egAt K B srted (j + 1) - egAt K B srted j ≤ thresh) ∧
      (j + 1 = r.e → j + 1 < srted.length →
        thresh < egAt K B srted (j + 1) - egAt K B srted j) := by
  intro j r hj
  have hjlen : j < srted.length := by
    obtain ⟨h1, _⟩ := List.get?_eq_some.mp hj
    rwa [fillShells_length, List.length_map] at h1
  have hn : 1 ≤ srted.length := by omega
  have hw := wall_sorted K B thresh srted hn
  obtain ⟨a, b, hab, haj, hjb⟩ := wall_cover K B thresh srted hjlen
  have hchain := zip_tail_chain hw
  have hfill : (fillShells (srted.map (fun p => Row.mk p.1 p.2 0 0))
      (gvWall K B thresh srted)).get? j
      = ((srted.map (fun p => Row.mk p.1 p.2 0 0)).get? j).map
          (fun r => { r with s := a, e := b }) :=
    foldl_setSlice_covered _ _ j a b hchain hab haj hjb
  rw [hj, List.get?_map] at hfill
  obtain ⟨p, hp, hpr⟩ : ∃ p, srted.get? j = some p ∧
      r = { Row.mk p.1 p.2 0 0 with s := a, e := b } := by
    cases hsp : srted.get? j with
    | none => rw [hsp] at hfill; exact absurd hfill (by simp)
    | some p =>
      rw [hsp] at hfill
      exact ⟨p, rfl, by simpa using hfill⟩
  have hrs : r.s = a := by rw [hpr]
  have hre : r.e = b := by rw [hpr]
  refine ⟨⟨p, hp, by rw [hpr], by rw [hpr]⟩, ⟨by omega, by omega⟩, ?_, ?_, ?_⟩
  · intro k rk hk hsk hke
    have hklen : k < srted.length := by
      obtain ⟨h1, _⟩ := List.get?_eq_some.mp hk
      rwa [fillShells_length, List.length_map] at h1
    obtain ⟨a', b', hab', hak', hkb'⟩ := wall_cover K B thresh srted hklen
    have hfillk : (fillShells (srted.map (fun p => Row.mk p.1 p.2 0 0))
        (gvWall K B thresh srted)).get? k
        = ((srted.map (fun p => Row.mk p.1 p.2 0 0)).get? k).map
            (fun r => { r with s := a', e := b' }) :=
      foldl_setSlice_covered _ _ k a' b' hchain hab' hak' hkb'
    rw [hk, List.get?_map] at hfillk
    obtain ⟨pk, hpk, hpkr⟩ : ∃ pk, srted.get? k = some pk ∧
        rk = { Row.mk pk.1 pk.2 0 0 with s := a', e := b' } := by
      cases hsp : srted.get? k with
      | none => rw [hsp] at hfillk; exact absurd hfillk (by simp)
      | some pk =>
        rw [hsp] at hfillk
        exact ⟨pk, rfl, by simpa using hfillk⟩
    have heqp : (a, b) = (a', b') := by
      rcases pairwise_mem_cases hchain hab hab' with heqq | hlt | hlt
      · exact heqq
      · exfalso
        have hb : b ≤ a' := hlt
        omega
      · exfalso
        have hb : b' ≤ a := hlt
        omega
    have ha' : a' = a := (congrArg Prod.fst heqp).symm
    have hb' : b' = b := (congrArg Prod.snd heqp).symm
    constructor
    · rw [hpkr, hrs, ha']
    · rw [hpkr, hre, hb']
  · intro hlt
    rw [hre] at hlt
    have hbw : b ∈ gvWall K B thresh srted := (zip_tail_fst_mem hab).2
    have hble : b ≤ srted.length := wall_le_length K B thresh srted b hbw
    have hnotw : (j + 1) ∉ gvWall K B thresh srted := by
      intro hmem
      rcases zip_tail_adjacent _ hw a b hab (j + 1) hmem with h | h <;> omega
    have := (mem_wall_iff K B thresh srted (by omega) (by omega)).not.mp hnotw
    simp only [Nat.add_sub_cancel] at this
    linarith [not_lt.mp this]
  · intro heq hlen
    have hbw : b ∈ gvWall K B thresh srted := (zip_tail_fst_mem hab).2
    rw [← hre, ← heq] at hbw
    have := (mem_wall_iff K B thresh srted (by omega) (by omega)).mp hbw
    simpa using this

/-! ### Properties of the `sortIG` post-processing pipeline -/

theorem sortWithKey_perm {α β : Type} [LinearOrder β] (key : α → β) (l : List α) :
    (reorder l (argsort (l.map key))).Perm l := by
  apply reorder_perm
  have h := argsort_perm (l.map key)
  rwa [List.length_map] at h

theorem gvSrted_pairwise (K : Vec3) (B : Mat3) (Ecut1 : ℚ) (igall : List GVec) :
    (gvSrted K B Ecut1 igall).Pairwise (fun p q => etot K B p.1 ≤ etot K B q.1) := by
  unfold gvSrted
  apply pairwise_key_reorder_argsort

theorem gvSrted_perm (K : Vec3) (B : Mat3) (Ecut1 : ℚ) (igall : List GVec) :
    (gvSrted K B Ecut1 igall).Perm (gvKept K B Ecut1 igall) := by
  unfold gvSrted
  apply sortWithKey_perm

theorem gvRows1_map_fst (igall : List GVec) :
    (gvRows1 igall).map Prod.fst = gvCanon igall := by
  unfold gvRows1
  rw [List.map_map]
  have hc : (Prod.fst ∘ fun p : ℕ × GVec => (p.2, p.1)) = Prod.snd := by
    funext p
    rfl
  rw [hc, List.enum_map_snd]

theorem gvCanon_perm (igall : List GVec) : (gvCanon igall).Perm igall := by
  unfold gvCanon
  apply sortWithKey_perm

theorem gvSrted_mem {K : Vec3} {B : Mat3} {Ecut1 : ℚ} {igall : List GVec} {p : GVec × ℕ}
    (hp : p ∈ gvSrted K B Ecut1 igall) : p.1 ∈ igall ∧ etot K B p.1 ≤ Ecut1 := by
  have hk := (gvSrted_perm K B Ecut1 igall).mem_iff.mp hp
  unfold gvKept at hk
  rw [List.mem_filter] at hk
  have he : etot K B p.1 ≤ Ecut1 := of_decide_eq_true hk.2
  refine ⟨?_, he⟩
  have h1 : p.1 ∈ (gvRows1 igall).map Prod.fst := List.mem_map_of_mem Prod.fst hk.1
  rw [gvRows1_map_fst] at h1
  exact (gvCanon_perm igall).mem_iff.mp h1

theorem gvSrted_nodup {K : Vec3} {B : Mat3} {Ecut1 : ℚ} {igall : List GVec}
    (hnd : igall.Nodup) : ((gvSrted K B Ecut1 igall).map Prod.fst).Nodup := by
  rw [(List.Perm.map Prod.fst (gvSrted_perm K B Ecut1 igall)).nodup_iff]
  have hsub : ((gvKept K B Ecut1 igall).map Prod.fst).Sublist (gvCanon igall) := by
    rw [← gvRows1_map_fst]
    exact List.Sublist.map _ (List.filter_sublist _)
  refine List.Nodup.sublist hsub ?_
  exact ((gvCanon_perm igall).nodup_iff).mpr hnd

theorem sortIG_map_g (K : Vec3) (B : Mat3) (Ecut1 thresh : ℚ) (igall : List GVec) :
    (sortIG K B Ecut1 thresh igall).map Row.g = (gvSrted K B Ecut1 igall).map Prod.fst := by
  unfold sortIG
  rw [fillShells_map_g, List.map_map]
  have hc : (Row.g ∘ fun p : GVec × ℕ => Row.mk p.1 p.2 0 0) = Prod.fst := by
    funext p
    rfl
  rw [hc]

theorem sortIG_get?_spec (K : Vec3) (B : Mat3) (Ecut1 thresh : ℚ) (igall : List GVec) :
    ∀ j r, (sortIG K B Ecut1 thresh igall).get? j = some r →
      (r.s ≤ j ∧ j < r.e) ∧
      (∀ k rk, (sortIG K B Ecut1 thresh igall).get? k = some rk → r.s ≤ k → k < r.e →
        rk.s = r.s ∧ rk.e = r.e) ∧
      (∀ r', (sortIG K B Ecut1 thresh igall).get? (j + 1) = some r' →
        (j + 1 < r.e → etot K B r'.g - etot K B r.g ≤ thresh) ∧
        (j + 1 = r.e → thresh < etot K B r'.g - etot K B r.g)) := by
  intro j r hj
  rw [sortIG] at hj
  obtain ⟨⟨p, hp, hpg, _⟩, hbounds, hshared, hgap1, hgap2⟩ :=
    fill_wall_spec K B thresh (gvSrted K B Ecut1 igall) j r hj
  refine ⟨hbounds, ?_, ?_⟩
  · intro k rk hk hsk hke
    rw [sortIG] at hk
    exact hshared k rk hk hsk hke
  · intro r' hj'
    rw [sortIG] at hj'
    obtain ⟨⟨p', hp', hpg', _⟩, _, _, _, _⟩ :=
      fill_wall_spec K B thresh (gvSrted K B Ecut1 igall) (j + 1) r' hj'
    have hegj : egAt K B (gvSrted K B Ecut1 igall) j = etot K B r.g := by
      unfold egAt
      rw [hp, hpg]
      rfl
    have hegj' : egAt K B (gvSrted K B Ecut1 igall) (j + 1) = etot K B r'.g := by
      unfold egAt
      rw [hp', hpg']
      rfl
    constructor
    · intro hlt
      have hg := hgap1 hlt
      rwa [hegj, hegj'] at hg
    · intro heq
      have hlen : j + 1 < (gvSrted K B Ecut1 igall).length := by
        obtain ⟨h1, _⟩ := List.get?_eq_some.mp hj'
        rwa [fillShells_length, List.length_map] at h1
      have hg := hgap2 heq hlen
      rwa [hegj, hegj'] at hg

theorem sortIG_mem {K : Vec3} {B : Mat3} {Ecut1 thresh : ℚ} {igall : List GVec} {r : Row}
    (hr : r ∈ sortIG K B Ecut1 thresh igall) : r.g ∈ igall ∧ etot K B r.g ≤ Ecut1 := by
  have hg : r.g ∈ (sortIG K B Ecut1 thresh igall).map Row.g := List.mem_map_of_mem Row.g hr
  rw [sortIG_map_g, List.mem_map] at hg
  obtain ⟨p, hp, hpg⟩ := hg
  obtain ⟨h1, h2⟩ := gvSrted_mem hp
  rw [hpg] at h1 h2
  exact ⟨h1, h2⟩

theorem sortIG_sorted (K : Vec3) (B : Mat3) (Ecut1 thresh : ℚ) (igall : List GVec) :
    (sortIG K B Ecut1 thresh igall).Pairwise
      (fun r r' => etot K B r.g ≤ etot K B r'.g) := by
  have h1 : ((sortIG K B Ecut1 thresh igall).map Row.g).Pairwise
      (fun g g' => etot K B g ≤ etot K B g') := by
    rw [sortIG_map_g, List.pairwise_map]
    exact gvSrted_pairwise K B Ecut1 igall
  rw [List.pairwise_map] at h1
  exact h1

theorem sortIG_nodup {K : Vec3} {B : Mat3} {Ecut1 thresh : ℚ} {igall : List GVec}
    (hnd : igall.Nodup) : ((sortIG K B Ecut1 thresh igall).map Row.g).Nodup := by
  rw [sortIG_map_g]
  exact gvSrted_nodup hnd

/-! ### Lemmas on `transformed_g` -/

theorem nodup_get?_inj {α : Type} {l : List α} (h : l.Nodup) {i j : ℕ} {x : α}
    (hi : l.get? i = some x) (hj : l.get? j = some x) : i = j := by
  obtain ⟨hi1, hi2⟩ := List.get?_eq_some.mp hi
  obtain ⟨hj1, hj2⟩ := List.get?_eq_some.mp hj
  have he : l.get ⟨i, hi1⟩ = l.get ⟨j, hj1⟩ := by rw [hi2, hj2]
  have := (List.Nodup.get_inj_iff h).mp he
  exact congrArg Fin.val this

theorem findInShell_some {tb : List Row} {v : GVec} {s e j : ℕ}
    (h : findInShell tb v s e = some j) :
    s ≤ j ∧ j < e ∧ ∃ rj, tb.get? j = some rj ∧ rj.g = v := by
  unfold findInShell at h
  have hmem := List.mem_of_find?_eq_some h
  have hp := List.find?_some h
  rw [List.mem_range'_1] at hmem
  have hd := of_decide_eq_true hp
  cases htb : tb.get? j with
  | none =>
    rw [htb] at hd
    simp at hd
  | some rj =>
    rw [htb] at hd
    refine ⟨by omega, by omega, rj, rfl, ?_⟩
    simpa using hd

theorem find?_eq_some_of_unique {l : List ℕ} {p : ℕ → Bool} {i : ℕ}
    (hi : i ∈ l) (hpi : p i = true) (huniq : ∀ j ∈ l, p j = true → j = i) :
    l.find? p = some i := by
  induction l with
  | nil => simp at hi
  | cons a l ih =>
    rw [List.mem_cons] at hi
    by_cases hpa : p a = true
    · have ha : a = i := huniq a (List.mem_cons_self a l) hpa
      subst ha
      exact List.find?_cons_of_pos l hpa
    · rcases hi with rfl | hi'
      · exact absurd hpi hpa
      · rw [List.find?_cons_of_neg l hpa]
        exact ih hi' (fun j hj hpj => huniq j (List.mem_cons_of_mem a hj) hpj)

theorem rotindIdx_ok {tb : List Row} {f : GVec → GVec} :
    ∀ (is js : List ℕ), rotindIdx tb f is = .ok js →
      js.length = is.length ∧
      ∀ k i, is.get? k = some i → ∃ j, js.get? k = some j ∧
        ∃ r, tb.get? i = some r ∧ findInShell tb (f r.g) r.s r.e = some j := by
  intro is
  induction is with
  | nil =>
    intro js h
    have hjs : js = [] := by simpa [rotindIdx] using h.symm
    subst hjs
    exact ⟨rfl, fun k i hk => by simp at hk⟩
  | cons i is ih =>
    intro js h
    cases htb : tb.get? i with
    | none =>
      simp only [rotindIdx, htb] at h
      exact Except.noConfusion h
    | some r =>
      cases hf : findInShell tb (f r.g) r.s r.e with
      | none =>
        simp only [rotindIdx, htb, hf] at h
        exact Except.noConfusion h
      | some j =>
        cases hrec : rotindIdx tb f is with
        | error e =>
          simp only [rotindIdx, htb, hf, hrec, Except.map] at h
          exact Except.noConfusion h
        | ok js' =>
          simp only [rotindIdx, htb, hf, hrec, Except.map] at h
          have hjs : js = j :: js' := (Except.ok.inj h).symm
          subst hjs
          obtain ⟨hlen, hspec⟩ := ih js' hrec
          refine ⟨by simp [hlen], ?_⟩
          intro k i' hk
          cases k with
          | zero =>
            have hii : i = i' := by simpa using hk
            subst hii
            exact ⟨j, rfl, r, htb, hf⟩
          | succ k' =>
            have hk' : is.get? k' = some i' := by simpa using hk
            obtain ⟨j', hj', hrest⟩ := hspec k' i' hk'
            exact ⟨j', by simpa using hj', hrest⟩

theorem rotindIdx_error_noPair {tb : List Row} {f : GVec → GVec} :
    ∀ (is : List ℕ) (err : TgErr), rotindIdx tb f is = .error err → err = .noPair := by
  intro is
  induction is with
  | nil =>
    intro err h
    simp [rotindIdx] at h
  | cons i is ih =>
    intro err h
    cases htb : tb.get? i with
    | none =>
      simp only [rotindIdx, htb] at h
      exact (Except.error.inj h).symm
    | some r =>
      cases hf : findInShell tb (f r.g) r.s r.e with
      | none =>
        simp only [rotindIdx, htb, hf] at h
        exact (Except.error.inj h).symm
      | some j =>
        cases hrec : rotindIdx tb f is with
        | error e =>
          simp only [rotindIdx, htb, hf, hrec, Except.map] at h
          rw [← Except.error.inj h]
          exact ih e hrec
        | ok js' =>
          simp only [rotindIdx, htb, hf, hrec, Except.map] at h
          exact Except.noConfusion h

theorem rotindIdx_id {tb : List Row} {f : GVec → GVec} :
    ∀ is : List ℕ,
      (∀ i ∈ is, ∃ r, tb.get? i = some r ∧ findInShell tb (f r.g) r.s r.e = some i) →
      rotindIdx tb f is = .ok is := by
  intro is
  induction is with
  | nil => intro _; rfl
  | cons i is ih =>
    intro hall
    obtain ⟨r, htb, hf⟩ := hall i (List.mem_cons_self i is)
    have hrec := ih (fun i' hi' => hall i' (List.mem_cons_of_mem i hi'))
    simp only [rotindIdx, htb, hf, hrec, Except.map]

theorem transformed_g_ok_spec {kpt : Vec3} {RL A : Mat3} {ig : List Row}
    {rotind : List ℕ} (h : transformed_g kpt ig RL A = .ok rotind) :
    tgClose kpt A ∧ rotind.length = ig.length ∧
    ∀ i r, ig.get? i = some r → ∃ j, rotind.get? i = some j ∧ r.s ≤ j ∧ j < r.e ∧
      ∃ rj, ig.get? j = some rj ∧ rj.g = tgImage kpt A r.g := by
  unfold transformed_g at h
  split_ifs at h with hc
  · obtain ⟨hlen, hspec⟩ := rotindIdx_ok _ _ h
    refine ⟨hc, by simpa using hlen, ?_⟩
    intro i r hir
    have hilen : i < ig.length := by
      obtain ⟨h1, _⟩ := List.get?_eq_some.mp hir
      exact h1
    have hi : (List.range ig.length).get? i = some i := List.get?_range hilen
    obtain ⟨j, hj, r', hr', hfind⟩ := hspec i i hi
    have hrr : r' = r := by
      rw [hir] at hr'
      exact (Option.some.inj hr').symm
    subst hrr
    obtain ⟨hs, he, rj, hrj, hrg⟩ := findInShell_some hfind
    exact ⟨j, hj, hs, he, rj, hrj, hrg⟩

theorem transformed_g_notSym_iff (kpt : Vec3) (RL A : Mat3) (ig : List Row) :
    transformed_g kpt ig RL A = .error .notSymmetry ↔ ¬ tgClose kpt A := by
  unfold transformed_g
  split_ifs with hc
  · constructor
    · intro h
      exact absurd (rotindIdx_error_noPair _ _ h) (by simp)
    · intro hn
      exact absurd hc hn
  · simp [hc]

theorem transformed_g_noPair {kpt : Vec3} {RL A : Mat3} {ig : List Row}
    (hc : tgClose kpt A)
    (hbad : ∃ i r, ig.get? i = some r ∧
      findInShell ig (tgImage kpt A r.g) r.s r.e = none) :
    transformed_g kpt ig RL A = .error .noPair := by
  unfold transformed_g
  rw [if_pos hc]
  obtain ⟨i, r, hir, hfind⟩ := hbad
  cases hres : rotindIdx ig (tgImage kpt A) (List.range ig.length) with
  | error err =>
    rw [rotindIdx_error_noPair _ _ hres]
  | ok js =>
    exfalso
    obtain ⟨_, hspec⟩ := rotindIdx_ok _ _ hres
    have hilen : i < ig.length := by
      obtain ⟨h1, _⟩ := List.get?_eq_some.mp hir
      exact h1
    obtain ⟨j, _, r', hr', hfind'⟩ := hspec i i (List.get?_range hilen)
    have hrr : r' = r := by
      rw [hir] at hr'
      exact (Option.some.inj hr').symm
    subst hrr
    rw [hfind] at hfind'
    exact Option.noConfusion hfind'

theorem transformed_g_nodup {kpt : Vec3} {RL A : Mat3} {ig : List Row} {rotind : List ℕ}
    (h : transformed_g kpt ig RL A = .ok rotind)
    (hnd : (ig.map Row.g).Nodup)
    (hinj : ∀ r1 ∈ ig, ∀ r2 ∈ ig, tgImage kpt A r1.g = tgImage kpt A r2.g → r1.g = r2.g) :
    rotind.Nodup := by
  obtain ⟨_, hlen, hspec⟩ := transformed_g_ok_spec h
  rw [List.nodup_iff_injective_get]
  intro ⟨k1, hk1⟩ ⟨k2, hk2⟩ hkeq
  have hg1 : rotind.get? k1 = some (rotind.get ⟨k1, hk1⟩) := List.get?_eq_get hk1
  have hg2 : rotind.get? k2 = some (rotind.get ⟨k2, hk2⟩) := List.get?_eq_get hk2
  simp only [hkeq] at hg1
  have hk1' : k1 < ig.length := by omega
  have hk2' : k2 < ig.length := by omega
  obtain ⟨r1, hr1⟩ : ∃ r1, ig.get? k1 = some r1 := by
    rw [List.get?_eq_get hk1']
    exact ⟨_, rfl⟩
  obtain ⟨r2, hr2⟩ : ∃ r2, ig.get? k2 = some r2 := by
    rw [List.get?_eq_get hk2']
    exact ⟨_, rfl⟩
  obtain ⟨j1, hj1, _, _, rj1, hrj1, hgj1⟩ := hspec k1 r1 hr1
  obtain ⟨j2, hj2, _, _, rj2, hrj2, hgj2⟩ := hspec k2 r2 hr2
  have hj12 : j1 = j2 := by
    rw [hg1] at hj1
    rw [hg2] at hj2
    have e1 := Option.some.inj hj1
    have e2 := Option.some.inj hj2
    rw [← e1, ← e2]
  subst hj12
  have hrj12 : rj1 = rj2 := by
    rw [hrj1] at hrj2
    exact Option.some.inj hrj2
  subst hrj12
  have himg : tgImage kpt A r1.g = tgImage kpt A r2.g := by
    rw [← hgj1, ← hgj2]
  have hmem1 : r1 ∈ ig := List.get?_mem hr1
  have hmem2 : r2 ∈ ig := List.get?_mem hr2
  have hgeq : r1.g = r2.g := hinj r1 hmem1 r2 hmem2 himg
  have hmg1 : (ig.map Row.g).get? k1 = some r1.g := by
    rw [List.get?_map, hr1]
    rfl
  have hmg2 : (ig.map Row.g).get? k2 = some r1.g := by
    rw [List.get?_map, hr2]
    rw [hgeq]
    rfl
  exact Fin.ext (nodup_get?_inj hnd hmg1 hmg2)

/-! ### Lemmas on `calc_gvectors` -/

theorem etot_nonneg (K : Vec3) (B : Mat3) (g : GVec) : 0 ≤ etot K B g := by
  unfold etot
  apply div_nonneg
  · apply Finset.sum_nonneg
    intro i _
    exact mul_self_nonneg _
  · norm_num [twomhbar2]

theorem calc_gvectors_ok {K : Vec3} {RL : Mat3} {Ecut : ℚ} {np : Option ℕ} {Ec1 th : ℚ}
    {sp : Bool} {nmax : ℕ} {t : List Row}
    (h : calc_gvectors K RL Ecut np Ec1 th sp nmax = .ok t) :
    ∃ igall : List GVec,
      (gvIter K RL Ecut np sp nmax 0 ⟨[], List.replicate 10 true⟩).1 = .ok igall ∧
      igall ≠ [] ∧
      t = sortIG K RL (if Ec1 ≤ 0 then Ecut else Ec1) th igall ∧
      igall.Nodup ∧ (∀ g ∈ igall, etot K RL g < Ecut) := by
  cases hres : (gvIter K RL Ecut np sp nmax 0 ⟨[], List.replicate 10 true⟩).1 with
  | error u =>
    simp only [calc_gvectors, hres] at h
    exact Except.noConfusion h
  | ok igall =>
    refine ⟨igall, rfl, ?_⟩
    obtain ⟨k, hk, hconc⟩ := gvIter_ok_eq nmax 0 _ igall hres
    rw [List.nil_append] at hconc
    have hnd : igall.Nodup := by
      rw [hconc]
      exact nodup_radiiConcat k 0
    have hmem : ∀ g ∈ igall, etot K RL g < Ecut := by
      intro g hg
      rw [hconc, mem_radiiConcat] at hg
      exact hg.2.2
    have hpost : ∀ hpo : (if igall.isEmpty then (.error .emptyTable : Except GvErr (List Row))
        else .ok (sortIG K RL (if Ec1 ≤ 0 then Ecut else Ec1) th igall)) = .ok t,
        igall ≠ [] ∧ t = sortIG K RL (if Ec1 ≤ 0 then Ecut else Ec1) th igall := by
      intro hpo
      by_cases hemp : igall.isEmpty
      · rw [if_pos hemp] at hpo
        exact Except.noConfusion hpo
      · rw [if_neg hemp] at hpo
        refine ⟨?_, (Except.ok.inj hpo).symm⟩
        intro hnil
        rw [hnil] at hemp
        exact hemp rfl
    cases np with
    | none =>
      simp only [calc_gvectors, hres] at h
      obtain ⟨h1, h2⟩ := hpost h
      exact ⟨h1, h2, hnd, hmem⟩
    | some np =>
      simp only [calc_gvectors, hres] at h
      have hp2 : (if igall.isEmpty = true then (Except.error GvErr.emptyTable)
          else Except.ok (sortIG K RL (if Ec1 ≤ 0 then Ecut else Ec1) th igall)) = .ok t := by
        by_cases hsp : sp = true
        · rw [if_pos hsp] at h
          by_cases hc : 2 * igall.length ≠ np
          · rw [if_pos hc] at h
            exact Except.noConfusion h
          · rwa [if_neg hc] at h
        · rw [if_neg hsp] at h
          by_cases hc : igall.length ≠ np
          · rw [if_pos hc] at h
            exact Except.noConfusion h
          · rwa [if_neg hc] at h
      obtain ⟨h1, h2⟩ := hpost hp2
      exact ⟨h1, h2, hnd, hmem⟩

/-! ### Helper lemmas for the identity rotation -/

theorem npRound_intCast (n : ℤ) : npRound ((n : ℚ)) = n := by
  simp only [npRound]
  rw [Int.floor_intCast, sub_self]
  norm_num

theorem inv3_one : inv3 (1 : Mat3) = 1 := by decide!

theorem tgB_one : tgB (1 : Mat3) = 1 := by
  unfold tgB
  rw [inv3_one, Matrix.transpose_one]

theorem tgKpt_one (kpt : Vec3) : tgKpt kpt 1 = kpt := by
  unfold tgKpt
  rw [tgB_one, Matrix.one_mulVec]

theorem tgDkpt_one (kpt : Vec3) (i : Fin 3) : tgDkpt kpt 1 i = 0 := by
  unfold tgDkpt
  rw [tgKpt_one, sub_self]
  decide!

theorem tgClose_one (kpt : Vec3) : tgClose kpt 1 := by
  intro i
  rw [tgDkpt_one, tgKpt_one, sub_self]
  unfold iscloseQ
  norm_num

theorem tgImage_one (kpt : Vec3) (g : GVec) : tgImage kpt 1 g = g := by
  obtain ⟨a, b, c⟩ := g
  have hv : ((tgB 1).mulVec (gvecToQ (a, b, c)) + fun i => ((tgDkpt kpt 1 i : ℚ)))
      = gvecToQ (a, b, c) := by
    funext i
    rw [tgB_one, Matrix.one_mulVec]
    show gvecToQ (a, b, c) i + ((tgDkpt kpt 1 i : ℚ)) = gvecToQ (a, b, c) i
    rw [tgDkpt_one]
    norm_num
  simp only [tgImage]
  rw [hv]
  show (npRound (gvecToQ (a, b, c) 0), npRound (gvecToQ (a, b, c) 1),
    npRound (gvecToQ (a, b, c) 2)) = (a, b, c)
  rw [show gvecToQ (a, b, c) 0 = (a : ℚ) from rfl,
    show gvecToQ (a, b, c) 1 = (b : ℚ) from rfl,
    show gvecToQ (a, b, c) 2 = (c : ℚ) from rfl,
    npRound_intCast, npRound_intCast, npRound_intCast]

/-! ### The claims -/

set_option maxHeartbeats 2000000 in
/-- C1 (corrected): every table `calc_gvectors` returns is sorted by ascending
kinetic energy and carries a consistent shell structure (shared bounds,
intra-shell gaps at most `thresh`, inter-shell gaps above `thresh`), but the
energy bound of a kept row is the NON-strict `Eg ≤ Ecut1` of line 164 (with
`Ecut1` defaulting to `Ecut` when nonpositive), not the strict bound the claim
states; rows additionally satisfy the strict `Eg < Ecut` of the search loop. -/
theorem irrep_c1 {K : Vec3} {RL : Mat3} {Ecut : ℚ} {np : Option ℕ} {Ec1 th : ℚ}
    {sp : Bool} {nmax : ℕ} {t : List Row}
    (h : calc_gvectors K RL Ecut np Ec1 th sp nmax = .ok t) :
    t.Pairwise (fun r r' => etot K RL r.g ≤ etot K RL r'.g) ∧
    (∀ r ∈ t, etot K RL r.g ≤ (if Ec1 ≤ 0 then Ecut else Ec1) ∧ etot K RL r.g < Ecut) ∧
    (∀ j r, t.get? j = some r →
      (r.s ≤ j ∧ j < r.e) ∧
      (∀ k rk, t.get? k = some rk → r.s ≤ k → k < r.e → rk.s = r.s ∧ rk.e = r.e) ∧
      ∀ r', t.get? (j + 1) = some r' →
        (j + 1 < r.e → etot K RL r'.g - etot K RL r.g ≤ th) ∧
        (j + 1 = r.e → th < etot K RL r'.g - etot K RL r.g)) := by
  obtain ⟨igall, _, hne, ht, hnd, hmem⟩ := calc_gvectors_ok h
  subst ht
  refine ⟨?_, ?_, ?_⟩
  · exact sortIG_sorted K RL (if Ec1 ≤ 0 then Ecut else Ec1) th igall
  · intro r hr
    obtain ⟨hg, hle⟩ := sortIG_mem hr
    exact ⟨hle, hmem r.g hg⟩
  · exact sortIG_get?_spec K RL (if Ec1 ≤ 0 then Ecut else Ec1) th igall

theorem irrep_c1_witness :
    c5table.Pairwise (fun r r' => etot cK0 cB1 r.g ≤ etot cK0 cB1 r'.g) :=
  (irrep_c1 (show calc_gvectors cK0 cB1 1 none (-1) (1e-3) true 2 = .ok c5table
    by decide!)).1

/-- C1 counterexample: with `Ecut1` equal to the exact energy of a unit
G-vector on the cubic lattice, `calc_gvectors` returns a table in which not
every row has energy strictly below `Ecut1` (the six unit vectors sit exactly
at `Ecut1` and are kept by the non-strict filter of line 164). -/
theorem irrep_c1_counterexample :
    (calc_gvectors cK0 cB1 10 none cEcutUnit (1e-3) true 3).map
      (fun t => t.all (fun r => decide (etot cK0 cB1 r.g < cEcutUnit))) = .ok false := by
  decide!

/-- C2 (corrected): when `transformed_g` returns an array it has one entry per
table column, each entry is an index inside the source column's own shell whose
stored G-vector equals the rounded transformed image, and every column's
shell-restricted search succeeded (a missing partner can only raise the
RuntimeError, never produce a default entry); but the array need NOT be
injective — the source never checks distinctness, and rounding can collapse
two columns onto one partner. -/
theorem irrep_c2 {kpt : Vec3} {RL A : Mat3} {ig : List Row} {rotind : List ℕ}
    (h : transformed_g kpt ig RL A = .ok rotind) :
    rotind.length = ig.length ∧
    (∀ i r, ig.get? i = some r → ∃ j, rotind.get? i = some j ∧ r.s ≤ j ∧ j < r.e ∧
      ∃ rj, ig.get? j = some rj ∧ rj.g = tgImage kpt A r.g) ∧
    (∀ i r, ig.get? i = some r →
      findInShell ig (tgImage kpt A r.g) r.s r.e ≠ none) := by
  obtain ⟨hc, hlen, hspec⟩ := transformed_g_ok_spec h
  refine ⟨hlen, hspec, ?_⟩
  intro i r hir hnone
  obtain ⟨j, _, hsj, hje, rj, hrj, hg⟩ := hspec i r hir
  unfold findInShell at hnone
  rw [List.find?_eq_none] at hnone
  refine hnone j ?_ ?_
  · rw [List.mem_range'_1]
    omega
  · show decide ((ig.get? j).map Row.g = some (tgImage kpt A r.g)) = true
    rw [hrj]
    simp [hg]

theorem irrep_c2_witness : ([0, 3, 4, 2, 1, 5, 6] : List ℕ).length = ctable4.length :=
  (irrep_c2 (show transformed_g cK0 ctable4 cB1 cA4 = .ok [0, 3, 4, 2, 1, 5, 6]
    by decide!)).1

/-- C2 counterexample: on the table of `calc_gvectors cK0 cB1 5 none (-1) 4
true 3` (whose seven columns share one energy shell at `thresh = 4`), the
transformation `cA2` passes the k-point check at Γ but its rounded dual images
collapse the unit vectors `(±1,0,0)` onto the origin, so the returned `rotind`
has duplicate entries: it is not injective. -/
theorem irrep_c2_counterexample :
    (match calc_gvectors cK0 cB1 5 none (-1) 4 true 3 with
      | .ok t => (transformed_g cK0 t cB1 cA2).map (fun l : List ℕ => decide l.Nodup)
      | .error _ => .error .noPair) = .ok false := by
  decide!

/-- C3 (confirmed): the per-G-vector phase factor of `symm_eigenvalues` is
`exp(-i·2π·((A⁻¹T)·(G+K)))` while that of `symm_matrix` is
`exp(-i·2π·((A·T)·(G+K)))`; the two differ exactly in applying `A⁻¹` versus
`A` to the translation (substituting `A⁻¹` for `A` in the matrix evaluator's
factor yields the trace evaluator's factor) and agree in everything else. -/
theorem irrep_c3 (A : Mat3) (T K : Vec3) (g : GVec) :
    multZE A T K g
        = Complex.exp (-Complex.I * (2 * (Real.pi : ℂ) * ((phaseExpE A T K g : ℚ) : ℂ))) ∧
    multZM A T K g
        = Complex.exp (-Complex.I * (2 * (Real.pi : ℂ) * ((phaseExpM A T K g : ℚ) : ℂ))) ∧
    phaseExpE A T K g = Matrix.dotProduct ((inv3 A).mulVec T) (gvecToQ g + K) ∧
    phaseExpM A T K g = Matrix.dotProduct (A.mulVec T) (gvecToQ g + K) ∧
    multZE A T K g = multZM (inv3 A) T K g :=
  ⟨rfl, rfl, rfl, rfl, rfl⟩

/-- C5 (confirmed): on any table produced by `calc_gvectors` and for any
k-point, `transformed_g` with the identity rotation returns the identity
permutation `0, 1, ..., n-1`. -/
theorem irrep_c5 {K : Vec3} {RL : Mat3} {Ecut : ℚ} {np : Option ℕ} {Ec1 th : ℚ}
    {sp : Bool} {nmax : ℕ} {t : List Row} (kpt : Vec3) (RL' : Mat3)
    (h : calc_gvectors K RL Ecut np Ec1 th sp nmax = .ok t) :
    transformed_g kpt t RL' 1 = .ok (List.range t.length) := by
  obtain ⟨igall, _, _, ht, hnd, _⟩ := calc_gvectors_ok h
  have hndg : (t.map Row.g).Nodup := by
    rw [ht]
    exact sortIG_nodup hnd
  have hspec := sortIG_get?_spec K RL (if Ec1 ≤ 0 then Ecut else Ec1) th igall
  rw [← ht] at hspec
  unfold transformed_g
  rw [if_pos (tgClose_one kpt)]
  apply rotindIdx_id
  intro i hi
  rw [List.mem_range] at hi
  obtain ⟨r, hr⟩ : ∃ r, t.get? i = some r := by
    rw [List.get?_eq_get hi]
    exact ⟨_, rfl⟩
  refine ⟨r, hr, ?_⟩
  rw [tgImage_one]
  obtain ⟨⟨hs, he⟩, -, -⟩ := hspec i r hr
  unfold findInShell
  apply find?_eq_some_of_unique
  · rw [List.mem_range'_1]
    omega
  · show decide ((t.get? i).map Row.g = some r.g) = true
    rw [hr]
    simp
  · intro j hj hpj
    have hpj' : (t.get? j).map Row.g = some r.g := of_decide_eq_true hpj
    cases htj : t.get? j with
    | none =>
      rw [htj] at hpj'
      exact absurd hpj' (by simp)
    | some rj =>
      rw [htj] at hpj'
      have hrg : rj.g = r.g := by simpa using hpj'
      have h1 : (t.map Row.g).get? j = some r.g := by
        rw [List.get?_map, htj]
        show some rj.g = some r.g
        rw [hrg]
      have h2 : (t.map Row.g).get? i = some r.g := by
        rw [List.get?_map, hr]
        rfl
      exact nodup_get?_inj hndg h1 h2

theorem irrep_c5_witness : transformed_g cK14 c5table cB1 1 = .ok (List.range c5table.length) :=
  irrep_c5 cK14 cB1 (show calc_gvectors cK0 cB1 1 none (-1) (1e-3) true 2 = .ok c5table
    by decide!)

/-- C6 (corrected): with a finite `nplane` the count-mismatch RuntimeError is
raised if and only if the number of G-vectors the BOUNDED search accumulated
differs from `nplane` (`2·count ≠ nplane` for spinors).  This is not the same
as comparing the true number of G-vectors below `Ecut` with `nplane`: the loop
breaks as soon as at least `nplane` (resp. `nplane/2`) vectors are found, so a
too-small `nplane` can be matched exactly by a truncated search and return a
table without any error (see the counterexample). -/
theorem irrep_c6 {K : Vec3} {RL : Mat3} {Ecut : ℚ} {np : ℕ} {Ec1 th : ℚ}
    {sp : Bool} {nmax : ℕ} {igall : List GVec}
    (hres : (gvIter K RL Ecut (some np) sp nmax 0 ⟨[], List.replicate 10 true⟩).1
      = .ok igall) :
    (calc_gvectors K RL Ecut (some np) Ec1 th sp nmax = .error .countMismatch ↔
      if sp = true then 2 * igall.length ≠ np else igall.length ≠ np) := by
  simp only [calc_gvectors, hres]
  cases sp with
  | false =>
    rw [if_neg Bool.false_ne_true, if_neg Bool.false_ne_true]
    by_cases hc : igall.length ≠ np
    · rw [if_pos hc]
      exact iff_of_true rfl hc
    · rw [if_neg hc]
      refine iff_of_false ?_ hc
      intro hpost
      by_cases hemp : igall.isEmpty
      · rw [if_pos hemp] at hpost
        exact GvErr.noConfusion (Except.error.inj hpost)
      · rw [if_neg hemp] at hpost
        exact Except.noConfusion hpost
  | true =>
    rw [if_pos rfl, if_pos rfl]
    by_cases hc : 2 * igall.length ≠ np
    · rw [if_pos hc]
      exact iff_of_true rfl hc
    · rw [if_neg hc]
      refine iff_of_false ?_ hc
      intro hpost
      by_cases hemp : igall.isEmpty
      · rw [if_pos hemp] at hpost
        exact GvErr.noConfusion (Except.error.inj hpost)
      · rw [if_neg hemp] at hpost
        exact Except.noConfusion hpost

theorem irrep_c6_witness :
    (calc_gvectors cK0 cB1 1 (some 5) (-1) (1e-3) false 3 = .error .countMismatch ↔
      if false = true then 2 * [((0 : ℤ), (0 : ℤ), (0 : ℤ))].length ≠ 5
      else [((0 : ℤ), (0 : ℤ), (0 : ℤ))].length ≠ 5) :=
  irrep_c6 (show (gvIter cK0 cB1 1 (some 5) false 3 0 ⟨[], List.replicate 10 true⟩).1
    = .ok [((0 : ℤ), (0 : ℤ), (0 : ℤ))] by decide!)

/-- C6 counterexample: on the anisotropic lattice `cBaniso` with `Ecut = 40`
there are exactly 7 integer triples below `Ecut` (all within L1 radius 3), yet
`calc_gvectors` with `nplane = 5` returns a 5-row table and raises no error:
the search breaks as soon as 5 vectors are accumulated, so a mismatch between
`nplane` and the true count does not imply the RuntimeError. -/
theorem irrep_c6_counterexample :
    (calc_gvectors cK0 cBaniso 40 (some 5) (-1) (1e-3) false 3).map List.length
        = .ok 5 ∧
    (((List.range 4).flatMap shellTriples).filter
        (fun g => decide (etot cK0 cBaniso g < 40))).length = 7 ∧
    ∀ g : GVec, etot cK0 cBaniso g < 40 → g ∈ (List.range 4).flatMap shellTriples := by
  refine ⟨by decide!, by decide!, ?_⟩
  rintro ⟨a, b, c⟩ hg
  rw [mem_flatten_shellTriples]
  have hw : cK0 + gvecToQ (a, b, c) = ![(a : ℚ), (b : ℚ), (c : ℚ)] := by
    funext i
    fin_cases i <;>
      simp [cK0, gvecToQ, Matrix.vecHead, Matrix.vecTail]
  have he : etot cK0 cBaniso (a, b, c)
      = ((a : ℚ) * a + 10 * b * (10 * b) + 10 * c * (10 * c)) / twomhbar2 := by
    unfold etot
    rw [hw]
    congr 1
    simp only [Matrix.vecMul, Matrix.dotProduct, Fin.sum_univ_three, cBaniso,
      Matrix.of_apply, Matrix.cons_val_zero, Matrix.cons_val_one, Matrix.head_cons,
      Matrix.cons_val_two, Matrix.tail_cons]
    ring
  rw [he, div_lt_iff (by norm_num [twomhbar2] : (0 : ℚ) < twomhbar2)] at hg
  have h40 : (40 : ℚ) * twomhbar2 < 11 := by norm_num [twomhbar2]
  have hb2 : (b : ℚ) * b < 1 := by
    nlinarith [mul_self_nonneg ((a : ℚ)), mul_self_nonneg ((c : ℚ))]
  have hc2 : (c : ℚ) * c < 1 := by
    nlinarith [mul_self_nonneg ((a : ℚ)), mul_self_nonneg ((b : ℚ))]
  have h6a : 6 * (a : ℚ) < 20 := by
    nlinarith [mul_self_nonneg ((a : ℚ) - 3), mul_self_nonneg ((b : ℚ)),
      mul_self_nonneg ((c : ℚ))]
  have h6a' : 6 * (-(a : ℚ)) < 20 := by
    nlinarith [mul_self_nonneg ((a : ℚ) + 3), mul_self_nonneg ((b : ℚ)),
      mul_self_nonneg ((c : ℚ))]
  have hbz : b * b < 1 := by exact_mod_cast hb2
  have hcz : c * c < 1 := by exact_mod_cast hc2
  have h6az : 6 * a < 20 := by exact_mod_cast h6a
  have h6az' : 6 * (-a) < 20 := by exact_mod_cast h6a'
  have hb0 : b = 0 := by
    have h1 : b * b ≤ 0 := Int.lt_add_one_iff.mp (by linarith)
    exact mul_self_eq_zero.mp (le_antisymm h1 (mul_self_nonneg b))
  have hc0 : c = 0 := by
    have h1 : c * c ≤ 0 := Int.lt_add_one_iff.mp (by linarith)
    exact mul_self_eq_zero.mp (le_antisymm h1 (mul_self_nonneg c))
  subst hb0
  subst hc0
  simp only [l1normZ, abs_zero, add_zero]
  rw [Int.abs_eq_natAbs]
  omega

/-- C7 (corrected): `transformed_g` raises the NotSymmetryError exactly when
the transformed k-point differs from the original by a non-integer vector
(outside the `np.isclose` tolerance) — but the claim's instance is impossible:
for `K = (1/2, 0, 0)` and `A = -I` the difference `K' - K = (-1, 0, 0)` IS an
integer vector, so no error is raised (see the counterexample); a genuine
instance is `K = (1/4, 0, 0)` with `A = -I`, where `K' - K = (-1/2, 0, 0)`. -/
theorem irrep_c7 (kpt : Vec3) (RL A : Mat3) (ig : List Row) :
    (transformed_g kpt ig RL A = .error .notSymmetry ↔ ¬ tgClose kpt A) ∧
    transformed_g cK14 [] cB1 cAneg = .error .notSymmetry := by
  refine ⟨transformed_g_notSym_iff kpt RL A ig, ?_⟩
  decide!

/-- C7 counterexample: at `K = (1/2, 0, 0)` with the inversion `A = -I`, the
transformed k-point is `(-1/2, 0, 0)` and `K' - K = (-1, 0, 0)` is integral,
so `transformed_g` raises no NotSymmetryError: on the two-column table
`c7table` it returns the swap `[1, 0]`. -/
theorem irrep_c7_counterexample :
    transformed_g cK7 c7table cB1 cAneg = .ok [1, 0] := by
  decide!

/-- C8 (confirmed): at radius `N` the triple-nested loop enumerates exactly
the integer triples of L1 norm `N`, each exactly once, and accumulating the
radii `0, 1, ..., M-1` yields every triple of L1 norm below `M` exactly once
(count one) and no other triple (count zero) — in particular no triple is
duplicated when `N - |g3| - |g2| = 0`. -/
theorem irrep_c8 (N M : ℕ) (g : GVec) :
    (g ∈ shellTriples N ↔ l1normZ g = (N : ℤ)) ∧
    (shellTriples N).Nodup ∧
    @List.count GVec instBEqOfDecidableEq g ((List.range M).flatMap shellTriples)
      = if l1normZ g < (M : ℤ) then 1 else 0 := by
  refine ⟨mem_shellTriples, nodup_shellTriples, ?_⟩
  by_cases hg : l1normZ g < (M : ℤ)
  · rw [if_pos hg]
    exact List.count_eq_one_of_mem nodup_flatten_shellTriples
      (mem_flatten_shellTriples.mpr hg)
  · rw [if_neg hg]
    refine @List.count_eq_zero_of_not_mem GVec instBEqOfDecidableEq instLawfulBEq g _ ?_
    intro hmem
    exact hg (mem_flatten_shellTriples.mp hmem)

/-- C9 (confirmed): the enumeration loop of `calc_gvectors` executes at most
`nplanemax` radius iterations, and `calc_gvectors` is total: on every input it
either returns a table or returns one of its errors. -/
theorem irrep_c9 (K : Vec3) (RL : Mat3) (Ecut : ℚ) (np : Option ℕ) (Ec1 th : ℚ)
    (sp : Bool) (nmax : ℕ) :
    (gvIter K RL Ecut np sp nmax 0 ⟨[], List.replicate 10 true⟩).2 ≤ nmax ∧
    ((∃ t, calc_gvectors K RL Ecut np Ec1 th sp nmax = .ok t) ∨
      ∃ e, calc_gvectors K RL Ecut np Ec1 th sp nmax = .error e) := by
  refine ⟨gvIter_count_le nmax 0 _, ?_⟩
  cases h : calc_gvectors K RL Ecut np Ec1 th sp nmax with
  | ok t => exact Or.inl ⟨t, rfl⟩
  | error e => exact Or.inr ⟨e, rfl⟩

/-- C10 (confirmed): when `nplane` is infinite and no integer triple within
radius `nplanemax` has kinetic energy below `Ecut`, the accumulated `igall` is
empty and `calc_gvectors` raises the empty-table error (the NumPy reduction of
line 151 on a zero-size array) instead of returning an empty table. -/
theorem irrep_c10 {K : Vec3} {RL : Mat3} {Ecut Ec1 th : ℚ} {sp : Bool} {nmax : ℕ}
    (hemp : ∀ g ∈ (List.range nmax).flatMap shellTriples, ¬ etot K RL g < Ecut) :
    calc_gvectors K RL Ecut none Ec1 th sp nmax = .error .emptyTable := by
  have hrad : ∀ M : ℕ, 0 ≤ M → M < 0 + nmax → radiusAdd K RL Ecut M = [] := by
    intro M _ hM
    unfold radiusAdd
    rw [List.filter_eq_nil_iff]
    intro g hgmem
    have hgm : g ∈ (List.range nmax).flatMap shellTriples :=
      List.mem_flatMap.mpr ⟨M, List.mem_range.mpr (by omega), hgmem⟩
    simp only [decide_eq_true_eq]
    exact hemp g hgm
  have hiter : (gvIter K RL Ecut none sp nmax 0 ⟨[], List.replicate 10 true⟩).1
      = .ok [] := gvIter_none_empty nmax 0 ⟨[], List.replicate 10 true⟩ hrad
  simp only [calc_gvectors, hiter]
  rfl

theorem irrep_c10_witness :
    calc_gvectors cK0 cB1 0 none (-1) (1e-3) false 2 = .error GvErr.emptyTable :=
  irrep_c10 (by decide!)

/-! ### Helper lemmas for claim C4 (trace versus matrix evaluator) -/

theorem multZE_quarter : multZE cA4 cT4 cK0 ((0 : ℤ), (1 : ℤ), (0 : ℤ)) = Complex.I := by
  have hph : phaseExpE cA4 cT4 cK0 ((0 : ℤ), (1 : ℤ), (0 : ℤ)) = -(1 / 4 : ℚ) := by
    decide!
  unfold multZE
  rw [hph]
  rw [show -Complex.I * (2 * (Real.pi : ℂ) * ((-(1 / 4 : ℚ) : ℚ) : ℂ))
      = ((Real.pi / 2 : ℝ) : ℂ) * Complex.I from by push_cast; ring]
  rw [Complex.exp_mul_I, ← Complex.ofReal_cos, ← Complex.ofReal_sin,
    Real.cos_pi_div_two, Real.sin_pi_div_two]
  simp

theorem multZM_quarter : multZM cA4 cT4 cK0 ((0 : ℤ), (1 : ℤ), (0 : ℤ)) = -Complex.I := by
  have hph : phaseExpM cA4 cT4 cK0 ((0 : ℤ), (1 : ℤ), (0 : ℤ)) = (1 / 4 : ℚ) := by
    decide!
  unfold multZM
  rw [hph]
  rw [show -Complex.I * (2 * (Real.pi : ℂ) * (((1 / 4 : ℚ) : ℚ) : ℂ))
      = ((-(Real.pi / 2) : ℝ) : ℂ) * Complex.I from by push_cast; ring]
  rw [Complex.exp_mul_I, ← Complex.ofReal_cos, ← Complex.ofReal_sin,
    Real.cos_neg, Real.sin_neg, Real.cos_pi_div_two, Real.sin_pi_div_two]
  simp

theorem symm_eigenvalues_ctable4 :
    symm_eigenvalues cK0 cB1 cWF4 ctable4 cA4 1 cT4 false = .ok cEig4 := by
  have hrot : transformed_g cK0 ctable4 cB1 cA4 = .ok [0, 3, 4, 2, 1, 5, 6] := by decide!
  delta symm_eigenvalues
  rw [hrot]
  rfl

theorem symm_matrix_ctable4 :
    symm_matrix cK0 cB1 cWF4 ctable4 cA4 1 cT4 false = .ok cMat4 := by
  have hrot : transformed_g cK0 ctable4 cB1 cA4 = .ok [0, 3, 4, 2, 1, 5, 6] := by decide!
  delta symm_matrix
  rw [hrot]
  rfl

theorem cEig4_at_zero : cEig4 0 = (12 / 25 : ℂ) * Complex.I := by
  have h0 : rotAt [0, 3, 4, 2, 1, 5, 6] 0 = 0 := by decide!
  have h1 : rotAt [0, 3, 4, 2, 1, 5, 6] 1 = 3 := by decide!
  have h2 : rotAt [0, 3, 4, 2, 1, 5, 6] 2 = 4 := by decide!
  have h3 : rotAt [0, 3, 4, 2, 1, 5, 6] 3 = 2 := by decide!
  have h4 : rotAt [0, 3, 4, 2, 1, 5, 6] 4 = 1 := by decide!
  have h5 : rotAt [0, 3, 4, 2, 1, 5, 6] 5 = 5 := by decide!
  have h6 : rotAt [0, 3, 4, 2, 1, 5, 6] 6 = 6 := by decide!
  have hg3 : rowG ctable4 3 = ((0 : ℤ), (1 : ℤ), (0 : ℤ)) := by decide!
  unfold cEig4
  rw [show ctable4.length = 7 from by decide!]
  rw [Finset.sum_range_succ, Finset.sum_range_succ, Finset.sum_range_succ,
    Finset.sum_range_succ, Finset.sum_range_succ, Finset.sum_range_succ,
    Finset.sum_range_succ, Finset.sum_range_zero]
  rw [h0, h1, h2, h3, h4, h5, h6, hg3, multZE_quarter]
  norm_num [cWF4, map_div₀, map_ofNat]

theorem cMat4_at_zero : cMat4 0 0 = -(12 / 25 : ℂ) * Complex.I := by
  have h0 : rotAt [0, 3, 4, 2, 1, 5, 6] 0 = 0 := by decide!
  have h1 : rotAt [0, 3, 4, 2, 1, 5, 6] 1 = 3 := by decide!
  have h2 : rotAt [0, 3, 4, 2, 1, 5, 6] 2 = 4 := by decide!
  have h3 : rotAt [0, 3, 4, 2, 1, 5, 6] 3 = 2 := by decide!
  have h4 : rotAt [0, 3, 4, 2, 1, 5, 6] 4 = 1 := by decide!
  have h5 : rotAt [0, 3, 4, 2, 1, 5, 6] 5 = 5 := by decide!
  have h6 : rotAt [0, 3, 4, 2, 1, 5, 6] 6 = 6 := by decide!
  have hg3 : rowG ctable4 3 = ((0 : ℤ), (1 : ℤ), (0 : ℤ)) := by decide!
  unfold cMat4
  rw [show ctable4.length = 7 from by decide!]
  rw [Finset.sum_range_succ, Finset.sum_range_succ, Finset.sum_range_succ,
    Finset.sum_range_succ, Finset.sum_range_succ, Finset.sum_range_succ,
    Finset.sum_range_succ, Finset.sum_range_zero]
  rw [h0, h1, h2, h3, h4, h5, h6, hg3, multZM_quarter]
  norm_num [cWF4, map_div₀, map_ofNat]

theorem cWF4_orthonormal : orthonormalWF cWF4 1 ctable4.length := by
  intro m hm n hn
  have hm0 : m = 0 := by omega
  have hn0 : n = 0 := by omega
  subst hm0
  subst hn0
  rw [show ctable4.length = 7 from by decide!]
  rw [Finset.sum_range_succ, Finset.sum_range_succ, Finset.sum_range_succ,
    Finset.sum_range_succ, Finset.sum_range_succ, Finset.sum_range_succ,
    Finset.sum_range_succ, Finset.sum_range_zero]
  norm_num [cWF4, map_div₀, map_ofNat]

theorem symm_eigenvalues_c5 :
    symm_eigenvalues cK0 cB1 cWF4 c5table 1 1 cT4 false = .ok cEigId := by
  have hrot : transformed_g cK0 c5table cB1 1 = .ok [0] := by decide!
  delta symm_eigenvalues
  rw [hrot]
  rfl

theorem symm_matrix_c5 :
    symm_matrix cK0 cB1 cWF4 c5table 1 1 cT4 false = .ok cMatId := by
  have hrot : transformed_g cK0 c5table cB1 1 = .ok [0] := by decide!
  delta symm_matrix
  rw [hrot]
  rfl

/-- C4 (corrected): the per-band traces of `symm_eigenvalues` equal the
diagonal of the `symm_matrix` output only under the additional hypothesis
`A⁻¹·T = A·T` (for example `T = 0`, or `A` an involution fixing `T`): the two
evaluators build their phase factors from `A⁻¹T` and `A·T` respectively, and
everything else cancels band by band — orthonormality and non-degeneracy of
the bands play no role.  Without that hypothesis the equality fails (see the
counterexample). -/
theorem irrep_c4 {K : Vec3} {RecLattice : Mat3} {WF : ℕ → ℕ → ℂ} {ig : List Row}
    {A : Mat3} {S : Matrix (Fin 2) (Fin 2) ℂ} {T : Vec3} {spinor : Bool}
    {eig : ℕ → ℂ} {M : ℕ → ℕ → ℂ}
    (hT : (inv3 A).mulVec T = A.mulVec T)
    (he : symm_eigenvalues K RecLattice WF ig A S T spinor = .ok eig)
    (hm : symm_matrix K RecLattice WF ig A S T spinor = .ok M)
    (m : ℕ) :
    eig m = M m m := by
  have hmz : ∀ g : GVec, multZE A T K g = multZM A T K g := by
    intro g
    unfold multZE multZM phaseExpE phaseExpM
    rw [hT]
  delta symm_eigenvalues at he
  delta symm_matrix at hm
  cases hrot : transformed_g K ig RecLattice A with
  | error err =>
    rw [hrot] at he
    simp only [] at he
    exact Except.noConfusion he
  | ok igrot =>
    rw [hrot] at he hm
    cases spinor with
    | false =>
      simp only [Bool.false_eq_true, if_false, Except.ok.injEq] at he hm
      subst he
      subst hm
      refine Finset.sum_congr rfl ?_
      intro gi _
      rw [hmz]
    | true =>
      simp only [eq_self_iff_true, if_true, Except.ok.injEq] at he hm
      subst he
      subst hm
      refine Finset.sum_congr rfl ?_
      intro gi _
      rw [hmz]
      simp only [Fin.sum_univ_two, Fin.val_zero, Fin.val_one, zero_mul, one_mul,
        zero_add, add_zero]
      ring

theorem irrep_c4_witness : cEigId 0 = cMatId 0 0 :=
  irrep_c4 (by decide!) symm_eigenvalues_c5 symm_matrix_c5 0

/-- C4 counterexample: on the hand-built table `ctable4` with the single
orthonormal band `cWF4`, the fourfold rotation `cA4` with translation
`T = (1/4, 0, 0)` is accepted by the rotation mapper, yet the trace evaluator
returns `(12/25)·i` at band 0 while the matrix evaluator's diagonal entry is
`-(12/25)·i`: the vector of `symm_eigenvalues` is NOT the diagonal of
`symm_matrix`. -/
theorem irrep_c4_counterexample :
    ∃ eig M, symm_eigenvalues cK0 cB1 cWF4 ctable4 cA4 1 cT4 false = .ok eig ∧
      symm_matrix cK0 cB1 cWF4 ctable4 cA4 1 cT4 false = .ok M ∧
      orthonormalWF cWF4 1 ctable4.length ∧ eig 0 ≠ M 0 0 := by
  refine ⟨cEig4, cMat4, symm_eigenvalues_ctable4, symm_matrix_ctable4,
    cWF4_orthonormal, ?_⟩
  rw [cEig4_at_zero, cMat4_at_zero]
  intro hc
  have hI : (24 / 25 : ℂ) * Complex.I = 0 := by linear_combination hc
  rcases mul_eq_zero.mp hI with h | h
  · norm_num at h
  · exact Complex.I_ne_zero h
